import Mathlib

/-!
Verification development for the Ibuild package manager (`src/ibuild1.0`).

The Python modules `dependency.py`, `package.py`, `build.py`, `meta.py` and
`sandbox.py` are shallowly embedded below.  Pure functions become Lean
functions; filesystem state becomes explicit record-passing; Python
exceptions become `Except` values.  Python `dict`s are modelled as
association lists with first-key-wins lookup and insert-or-update-in-place
semantics, which matches the insertion-ordered behaviour of CPython dicts.
Python `set`s of strings are modelled as duplicate-free lists in insertion
order (the embedding fixes one deterministic iteration order).

The version-comparison layer embeds the module's own fallback branch
(`HAS_PACKAGING = False` in `dependency.py`): the file defines this
self-contained comparator precisely for environments without the external
`packaging` library, and all comparisons below follow it.
-/

namespace Ibuild

/-! ## Association-list helpers (CPython dict / set semantics) -/

/-- First-key-wins lookup, `d.get(k)`. -/
def alGet {β : Type} (l : List (String × β)) (k : String) : Option β :=
  (l.find? (fun p => p.1 = k)).map (·.2)

/-- `d[k] = v`: update the first occurrence in place, else append. -/
def alSet {β : Type} (l : List (String × β)) (k : String) (v : β) :
    List (String × β) :=
  match l with
  | [] => [(k, v)]
  | (k', v') :: t => if k' = k then (k, v) :: t else (k', v') :: alSet t k v

/-- `d.setdefault(k, dflt)` followed by mutating the stored value with `f`. -/
def alUpd {β : Type} (l : List (String × β)) (k : String) (f : β → β)
    (dflt : β) : List (String × β) :=
  match l with
  | [] => [(k, f dflt)]
  | (k', v') :: t =>
      if k' = k then (k', f v') :: t else (k', v') :: alUpd t k f dflt

/-- Delete the entry for `k` (all occurrences; keys are unique in use). -/
def alDel {β : Type} (l : List (String × β)) (k : String) :
    List (String × β) :=
  l.filter (fun p => p.1 ≠ k)

/-- `s.add(x)` on an insertion-ordered set. -/
def setAdd (l : List String) (x : String) : List String :=
  if x ∈ l then l else l ++ [x]

/-- Python `str.strip()` (also Lean-side `trim`): drop leading and
trailing whitespace. -/
def pyTrim (s : String) : String :=
  String.mk
    (((s.data.dropWhile Char.isWhitespace).reverse.dropWhile
      Char.isWhitespace).reverse)

/-- Python `s.split(sep)` for a one-character separator (keeps empty
fields). -/
def splitCharGo (sep : Char) : List Char → List Char → List String
  | [], cur => [String.mk cur]
  | c :: t, cur =>
      if c = sep then String.mk cur :: splitCharGo sep t []
      else splitCharGo sep t (cur ++ [c])

/-- Python `s.split(sep)` with a one-character separator. -/
def pySplitChar (s : String) (sep : Char) : List String :=
  splitCharGo sep s.data []

/-- Python `s.startswith(pre)`. -/
def pyStartsWith (s pre : String) : Bool :=
  pre.data.isPrefixOf s.data

/-- Python `s.endswith(suf)`. -/
def pyEndsWith (s suf : String) : Bool :=
  suf.data.isSuffixOf s.data

/-- `s[n:]`. -/
def pyDrop (s : String) (n : Nat) : String :=
  String.mk (s.data.drop n)

/-- The scanning loop of Python `str.replace` (non-overlapping,
left-to-right).  The fuel starts at the subject length and each step
consumes at least one character, so the fuel-exhausted branch is
unreachable for the non-empty patterns used here. -/
def replGo (pat rep : List Char) : Nat → List Char → List Char
  | _, [] => []
  | 0, l => l
  | Nat.succ fuel, c :: t =>
      if pat.isPrefixOf (c :: t) then
        rep ++ replGo pat rep fuel ((c :: t).drop pat.length)
      else c :: replGo pat rep fuel t

/-- Python `s.replace(pat, rep)` for non-empty `pat` (every use below
passes a non-empty pattern; an empty pattern returns `s` unchanged). -/
def pyReplace (s pat rep : String) : String :=
  if pat = "" then s
  else String.mk (replGo pat.data rep.data s.data.length s.data)

/-- Python `",".join(l)` and friends. -/
def pyJoin (sep : String) : List String → String
  | [] => ""
  | h :: t => t.foldl (fun acc x => acc ++ sep ++ x) h

/-- Python `a < b` on strings: code-point lexicographic comparison. -/
def pyCharsLt : List Char → List Char → Bool
  | [], [] => false
  | [], _ :: _ => true
  | _ :: _, [] => false
  | x :: xs, y :: ys =>
      if x < y then true else if y < x then false else pyCharsLt xs ys

/-- Python `a < b` on strings. -/
def pyStrLt (a b : String) : Bool :=
  pyCharsLt a.data b.data

/-- Python `a <= b` on strings (`not (b < a)` for a total order). -/
def pyStrLe (a b : String) : Bool :=
  ! pyStrLt b a

theorem alGet_nil {β : Type} (k : String) :
    alGet ([] : List (String × β)) k = none := rfl

theorem alGet_cons_self {β : Type} (k : String) (v : β)
    (t : List (String × β)) : alGet ((k, v) :: t) k = some v := by
  simp [alGet, List.find?_cons_of_pos]

theorem alGet_cons_ne {β : Type} (k' k : String) (v : β)
    (t : List (String × β)) (hk : k' ≠ k) :
    alGet ((k', v) :: t) k = alGet t k := by
  simp only [alGet]
  rw [List.find?_cons_of_neg]
  simp [hk]

theorem alGet_isSome_of_mem {β : Type} (l : List (String × β)) (m : String)
    (hm : m ∈ l.map (·.1)) : ∃ v, alGet l m = some v := by
  induction l with
  | nil => simp at hm
  | cons h t ih =>
      obtain ⟨k, v⟩ := h
      by_cases hk : k = m
      · subst hk
        exact ⟨v, alGet_cons_self k v t⟩
      · simp only [List.map, List.mem_cons] at hm
        rcases hm with h1 | h2
        · exact absurd h1.symm hk
        · rw [alGet_cons_ne k m v t hk]
          exact ih h2

theorem alGet_alUpd_self {β : Type} (l : List (String × β)) (k : String)
    (f : β → β) (dflt : β) :
    alGet (alUpd l k f dflt) k = some (f ((alGet l k).getD dflt)) := by
  induction l with
  | nil => simp [alUpd, alGet_nil, alGet_cons_self]
  | cons h t ih =>
      obtain ⟨k', v'⟩ := h
      by_cases hk : k' = k
      · subst hk
        simp only [alUpd, if_pos rfl, if_true]
        rw [alGet_cons_self, alGet_cons_self]
        simp
      · simp only [alUpd, if_neg hk]
        rw [alGet_cons_ne k' k v' t hk, alGet_cons_ne k' k v' _ hk]
        exact ih

theorem alUpd_keys_superset {β : Type} (l : List (String × β)) (k : String)
    (f : β → β) (dflt : β) (x : String) (hx : x ∈ l.map (·.1)) :
    x ∈ (alUpd l k f dflt).map (·.1) := by
  induction l with
  | nil => simp at hx
  | cons h t ih =>
      obtain ⟨k', v'⟩ := h
      by_cases hk : k' = k
      · subst hk
        simpa [alUpd] using hx
      · simp only [alUpd, if_neg hk, List.map, List.mem_cons] at hx ⊢
        rcases hx with h1 | h2
        · exact Or.inl h1
        · exact Or.inr (ih h2)

/-- Python `needle in hay` on strings (substring containment). -/
def strSub (needle hay : String) : Bool :=
  go needle.data hay.data
where
  go (n : List Char) : List Char → Bool
    | [] => n.isEmpty
    | h :: t => n.isPrefixOf (h :: t) || go n t

/-- Digits of `v`, read as a decimal number
(`int("".join(x for x in v if x.isdigit()))`). -/
def digitNum (v : String) : Nat :=
  (v.data.filter Char.isDigit).foldl (fun n c => n * 10 + (c.toNat - 48)) 0

/-! ## Version / specifier fallback layer (`parse_specifier`, `spec_matches_version`) -/

/-- Comparator operators of the fallback specifier grammar. -/
inductive SpecOp
  | eq | ge | le | gt | lt
deriving Repr, DecidableEq

/-- One parsed part of a fallback specifier: operator plus literal. -/
abbrev SpecPart := SpecOp × String

/-- One comma-separated part of a specifier string
(the `startswith` cascade in `parse_specifier`). -/
def parseSpecPart (part : String) : SpecPart :=
  let part := pyTrim part
  if pyStartsWith part "==" then (SpecOp.eq, pyDrop part 2)
  else if pyStartsWith part ">=" then (SpecOp.ge, pyDrop part 2)
  else if pyStartsWith part "<=" then (SpecOp.le, pyDrop part 2)
  else if pyStartsWith part ">" then (SpecOp.gt, pyDrop part 1)
  else if pyStartsWith part "<" then (SpecOp.lt, pyDrop part 1)
  else (SpecOp.eq, part)

/-- `parse_specifier` (fallback branch): `None` for the empty string, else
the list of comma-separated parts. -/
def parseSpecifier (spec : String) : Option (List SpecPart) :=
  if spec = "" then none
  else some ((pySplitChar spec ',').map parseSpecPart)

/-- One comparison of the fallback `checker` closure (string comparisons,
exactly as Python compares `str` values code-point-lexicographically). -/
def specPartOk (p : SpecPart) (ver : String) : Bool :=
  match p.1 with
  | SpecOp.eq => ver = p.2
  | SpecOp.ge => ! pyStrLt ver p.2
  | SpecOp.le => ! pyStrLt p.2 ver
  | SpecOp.gt => pyStrLt p.2 ver
  | SpecOp.lt => pyStrLt ver p.2

/-- `spec_matches_version` on the fallback checker. -/
def specMatches (spec : Option (List SpecPart)) (version : Option String) :
    Bool :=
  match spec with
  | none => true
  | some ops =>
      match version with
      | none => false
      | some v => ops.all (fun p => specPartOk p v)

/-! ## `PackageCandidate` / `PackageRequirement` -/

/-- `PackageCandidate`.  `metaProvides` is the `provides` entry of the raw
`meta` dict (the only part of `meta` the resolver ever reads, in
`PackageCandidate.satisfies`). -/
structure PackageCandidate where
  name : String
  version : Option String
  provides : List String
  depends : List String
  conflicts : List String
  optional : List String
  metaProvides : List String
deriving Repr, DecidableEq

/-- `PackageCandidate.id`. -/
def PackageCandidate.cid (c : PackageCandidate) : String :=
  match c.version with
  | some v => c.name ++ "-" ++ v
  | none => c.name

/-- `PackageRequirement`. -/
structure PackageRequirement where
  name : String
  raw : String := ""
  specifier : Option (List SpecPart) := none
deriving Repr, DecidableEq

/-- `PackageCandidate.satisfies`. -/
def PackageCandidate.satisfies (c : PackageCandidate)
    (r : PackageRequirement) : Bool :=
  if r.name ≠ c.name ∧ r.name ∉ c.provides ∧ r.name ∉ c.metaProvides then
    false
  else
    specMatches r.specifier c.version

/-- Characters admitted into the name part by `from_string`
(`ch.isalnum() or ch in "-_."`). -/
def isNameChar (ch : Char) : Bool :=
  ch.isAlphanum || ch = '-' || ch = '_' || ch = '.'

/-- The comparator substrings `from_string` searches for. -/
def comparatorChunks : List String :=
  ["==", ">=", "<=", ">", "<", "~=", "!="]

/-- `PackageRequirement.from_string`.  The source raises `ValueError` on an
empty (stripped) input, modelled as `none`; all uses below are guarded by
non-empty dependency strings. -/
def reqFromString? (s : String) : Option PackageRequirement :=
  let s := pyTrim s
  if s = "" then none
  else if comparatorChunks.any (fun c => strSub c s) then
    -- name is the leading run of alnum/-/_/. characters, spec the rest
    let nameChars := s.data.takeWhile isNameChar
    let specStr := pyTrim (String.mk (s.data.dropWhile isNameChar))
    some { name := String.mk nameChars, raw := s,
           specifier := parseSpecifier specStr }
  else if s.data.contains ' ' then
    -- `s.split(None, 1)`: first whitespace-run-delimited token, then rest
    let nameChars := s.data.takeWhile (fun c => ¬ c.isWhitespace)
    let rest := (s.data.dropWhile (fun c => ¬ c.isWhitespace)).dropWhile
      Char.isWhitespace
    some { name := String.mk nameChars, raw := s,
           specifier := parseSpecifier (pyTrim (String.mk rest)) }
  else
    some { name := s, raw := s, specifier := none }

/-- Total wrapper used where the source calls `from_string` on dependency
strings; the `ValueError` case maps to an inert empty requirement and is
excluded by well-formedness hypotheses in the theorems. -/
def reqFromString (s : String) : PackageRequirement :=
  (reqFromString? s).getD { name := "", raw := "" }

/-! ## `RepoIndex` (`candidates_by_name`, `provides_index`, `find_candidates`) -/

/-- The in-memory repository index.  `candidatesByName` maps a package name
to its candidate list (different versions, in scan order); `providesIndex`
maps a provide name to the set of provider package names. -/
structure RepoIndex where
  candidatesByName : List (String × List PackageCandidate)
  providesIndex : List (String × List String)
deriving Repr, DecidableEq

/-- The index-building scan of `_repoindex_load`: for each parsed candidate,
append it under its name, register its provides, and register the package
name as a provider of itself. -/
def buildIndex (cands : List PackageCandidate) : RepoIndex :=
  cands.foldl
    (fun idx c =>
      let cbn := alUpd idx.candidatesByName c.name (fun l => l ++ [c]) []
      let pi1 := c.provides.foldl
        (fun pi p => alUpd pi p (fun s => setAdd s c.name) []) idx.providesIndex
      let pi2 := alUpd pi1 c.name (fun s => setAdd s c.name) []
      { candidatesByName := cbn, providesIndex := pi2 })
    { candidatesByName := [], providesIndex := [] }

/-- `cand_score` inside `find_candidates` (fallback version branch): the
returned sort key is the negated score. -/
def candScoreKey (req : PackageRequirement) (c : PackageCandidate) : Int :=
  let base : Int := if c.name = req.name then 1000 else 0
  let vscore : Int :=
    (match c.version with
    | none => 0
    | some v => if v.data.any Char.isDigit then (digitNum v : Int) else 0)
  Neg.neg (base + vscore)

/-- The collection loop of `find_candidates`: iterate provider names, then
each name's candidate list, skipping ids already seen and keeping only
candidates that satisfy the requirement. -/
def collectCandidates (idx : RepoIndex) (req : PackageRequirement)
    (provs : List String) : List PackageCandidate :=
  (provs.foldl
    (fun (acc : List PackageCandidate × List String) pname =>
      ((alGet idx.candidatesByName pname).getD []).foldl
        (fun acc c =>
          if c.cid ∈ acc.2 then acc
          else if c.satisfies req then (acc.1 ++ [c], acc.2 ++ [c.cid])
          else acc)
        acc)
    ([], [])).1

/-- `RepoIndex.find_candidates`.  The Python set `provs` is modelled as the
insertion-ordered set of provider names followed by the requirement name
itself. -/
def findCandidates (idx : RepoIndex) (req : PackageRequirement) :
    List PackageCandidate :=
  let provs := setAdd ((alGet idx.providesIndex req.name).getD []) req.name
  let out := collectCandidates idx req provs
  out.insertionSort (fun a b => candScoreKey req a ≤ candScoreKey req b)

/-- `RepoIndex.find_best`. -/
def findBest (idx : RepoIndex) (req : PackageRequirement) :
    Option PackageCandidate :=
  (findCandidates idx req).head?

/-! ## `ResolveResult` and `_verify_selection` -/

/-- The chosen set: a name-keyed dict of candidates. -/
abbrev Chosen := List (String × PackageCandidate)

/-- `ResolveResult`. -/
structure ResolveResult where
  ok : Bool
  chosen : Chosen
  order : List String
  issues : List String
deriving Repr, DecidableEq

/-- The quick provides map built at the top of `_verify_selection`:
for each chosen candidate, every provide plus the candidate's own name maps
to the candidate (appending). -/
def verifyProvidesMap (chosenMap : Chosen) :
    List (String × List PackageCandidate) :=
  chosenMap.foldl
    (fun pm nc =>
      (nc.2.provides ++ [nc.2.name]).foldl
        (fun pm p => alUpd pm p (fun l => l ++ [nc.2]) []) pm)
    []

/-- The satisfaction scan of `_verify_selection`: some provides-map key
equals the requirement name or contains it as a substring, and some
candidate stored under that key satisfies the requirement. -/
def verifySat (pm : List (String × List PackageCandidate))
    (pr : PackageRequirement) : Bool :=
  pm.any (fun e =>
    (e.1 = pr.name || strSub pr.name e.1) && e.2.any (·.satisfies pr))

/-- `pr.raw or pr.name`. -/
def reqLabel (pr : PackageRequirement) : String :=
  if pr.raw ≠ "" then pr.raw else pr.name

/-- The issues contributed by one chosen candidate: unsatisfied non-optional
depends first, then conflict matches against every chosen entry. -/
def candIssues (pm : List (String × List PackageCandidate))
    (chosenMap : Chosen) (allowOptional : Bool) (cand : PackageCandidate) :
    List String :=
  (cand.depends.foldl
    (fun acc d =>
      let pr := reqFromString d
      if verifySat pm pr then acc
      else if pr.name ∈ cand.optional ∧ allowOptional then acc
      else acc ++ ["unsatisfied:" ++ cand.name ++ "->" ++ reqLabel pr])
    [])
  ++ (cand.conflicts.foldl
    (fun acc c =>
      acc ++ (chosenMap.filterMap (fun oc =>
        if oc.1 = c ∨ c ∈ oc.2.provides then
          some ("conflict:" ++ cand.name ++ "~" ++ oc.1)
        else none)))
    [])

/-- `DependencyResolver._verify_selection`. -/
def verifySelection (chosenMap : Chosen) (allowOptional : Bool) :
    Bool × List String :=
  let pm := verifyProvidesMap chosenMap
  let issues := chosenMap.foldl
    (fun acc nc => acc ++ candIssues pm chosenMap allowOptional nc.2) []
  (issues.isEmpty, issues)

/-! ## `_topological_order` (Kahn's algorithm) -/

/-- The node dict of `_topological_order`: candidate ids mapped to
candidates (`{c.id(): c for c in chosen_map.values()}`). -/
def topoNodes (chosenMap : Chosen) : List (String × PackageCandidate) :=
  chosenMap.foldl (fun ns nc => alSet ns nc.2.cid nc.2) []

/-- The dependency-edge map: for each node and each of its depends, the id
of the first chosen candidate satisfying the parsed requirement is added
(when non-empty and itself a node). -/
def topoDeps (chosenMap : Chosen) (nodes : List (String × PackageCandidate)) :
    List (String × List String) :=
  nodes.foldl
    (fun dm nd =>
      nd.2.depends.foldl
        (fun dm d =>
          let pr := reqFromString d
          match chosenMap.find? (fun nc => nc.2.satisfies pr) with
          | none => dm
          | some nc =>
              let pid := nc.2.cid
              if pid ≠ "" ∧ (alGet nodes pid).isSome then
                alUpd dm nd.1 (fun s => setAdd s pid) []
              else dm)
        dm)
    (nodes.map (fun nd => (nd.1, ([] : List String))))

/-- Sum of the positive parts of the in-degree table (termination measure
for the Kahn loop). -/
def posSum (l : List (String × Int)) : Nat :=
  (l.map (fun e => e.2.toNat)).sum

/-- Edge-removal pass of one Kahn iteration: walk the dependency map in
order; wherever the popped node occurs, remove it, decrement the owner's
in-degree, and collect owners whose in-degree reached zero (in map
order, as Python appends them to the queue). -/
def kahnStep (n : String) (deps : List (String × List String))
    (indeg : List (String × Int)) :
    List (String × List String) × List (String × Int) × List String :=
  match deps with
  | [] => ([], indeg, [])
  | (m, dset) :: t =>
      if n ∈ dset then
        let dset' := dset.erase n
        let indeg' := alUpd indeg m (fun v => v - 1) 0
        let newdeg := (alGet indeg' m).getD 0
        let r := kahnStep n t indeg'
        ((m, dset') :: r.1, r.2.1, if newdeg = 0 then m :: r.2.2 else r.2.2)
      else
        let r := kahnStep n t indeg
        ((m, dset) :: r.1, r.2.1, r.2.2)

theorem posSum_alUpd_eq (l : List (String × Int)) (m : String)
    (hm : m ∈ l.map (·.1)) :
    posSum (alUpd l m (fun v => v - 1) 0) + ((alGet l m).getD 0).toNat
      = posSum l + (((alGet l m).getD 0) - 1).toNat := by
  induction l with
  | nil => simp at hm
  | cons h t ih =>
      obtain ⟨k, v⟩ := h
      by_cases hk : k = m
      · subst hk
        simp only [alUpd, if_pos rfl, if_true]
        rw [alGet_cons_self]
        simp only [Option.getD_some, posSum, List.map, List.sum_cons]
        omega
      · simp only [List.map, List.mem_cons] at hm
        rcases hm with h2 | h2
        · exact absurd h2.symm hk
        · simp only [alUpd, if_neg hk]
          rw [alGet_cons_ne k m v t hk]
          simp only [posSum, List.map, List.sum_cons]
          have := ih h2
          simp only [posSum] at this
          omega

theorem kahnStep_measure (n : String) (deps : List (String × List String)) :
    ∀ indeg : List (String × Int),
    (∀ m ∈ deps.map (·.1), m ∈ indeg.map (·.1)) →
    (kahnStep n deps indeg).2.2.length + posSum (kahnStep n deps indeg).2.1
      ≤ posSum indeg := by
  induction deps with
  | nil =>
      intro indeg _
      simp [kahnStep]
  | cons h t ih =>
      intro indeg hk
      obtain ⟨m, dset⟩ := h
      have hm : m ∈ indeg.map (·.1) := hk m (by simp)
      by_cases hn : n ∈ dset
      · simp only [kahnStep, if_pos hn]
        have hkeys : ∀ x ∈ t.map (·.1),
            x ∈ (alUpd indeg m (fun v => v - 1) 0).map (·.1) :=
          fun x hx => alUpd_keys_superset _ _ _ _ x (hk x (by simp [hx]))
        have h2 := ih (alUpd indeg m (fun v => v - 1) 0) hkeys
        have h3 := posSum_alUpd_eq indeg m hm
        have h4 := alGet_alUpd_self indeg m (fun v => v - 1) 0
        obtain ⟨v, hv⟩ := alGet_isSome_of_mem indeg m hm
        rw [hv] at h3 h4
        simp only [Option.getD_some] at h3 h4
        rw [h4]
        simp only [Option.getD_some]
        by_cases hz : v - 1 = 0
        · simp only [if_pos hz, List.length_cons]
          omega
        · simp only [if_neg hz]
          omega
      · simp only [kahnStep, if_neg hn]
        exact ih indeg (fun x hx => hk x (by simp [hx]))

theorem kahnStep_deps_keys (n : String) (deps : List (String × List String)) :
    ∀ indeg, (kahnStep n deps indeg).1.map (·.1) = deps.map (·.1) := by
  induction deps with
  | nil => intro indeg; simp [kahnStep]
  | cons h t ih =>
      intro indeg
      obtain ⟨m, ds⟩ := h
      by_cases hn : n ∈ ds <;> simp [kahnStep, hn, ih]

theorem kahnStep_indeg_keys (n : String) (deps : List (String × List String)) :
    ∀ indeg x, x ∈ indeg.map (·.1) →
      x ∈ (kahnStep n deps indeg).2.1.map (·.1) := by
  induction deps with
  | nil =>
      intro indeg x hx
      simpa [kahnStep] using hx
  | cons h t ih =>
      intro indeg x hx
      obtain ⟨m, ds⟩ := h
      by_cases hn : n ∈ ds
      · simp only [kahnStep, if_pos hn]
        exact ih _ x (alUpd_keys_superset _ _ _ _ x hx)
      · simp only [kahnStep, if_neg hn]
        exact ih _ x hx

/-- The Kahn queue loop (`while q:`): pop from the front, append to the
order, remove outgoing edges and enqueue nodes whose in-degree reached
zero. -/
def kahnLoop (q : List String) (order : List String)
    (deps : List (String × List String)) (indeg : List (String × Int))
    (hk : ∀ m ∈ deps.map (·.1), m ∈ indeg.map (·.1)) : List String :=
  match q with
  | [] => order
  | n :: qt =>
      kahnLoop (qt ++ (kahnStep n deps indeg).2.2) (order ++ [n])
        (kahnStep n deps indeg).1 (kahnStep n deps indeg).2.1
        (by
          intro m hm
          rw [kahnStep_deps_keys] at hm
          exact kahnStep_indeg_keys n deps indeg m (hk m hm))
termination_by q.length + posSum indeg
decreasing_by
  have := kahnStep_measure h deps indeg hk
  simp only [List.length_append, List.length_cons]
  omega

/-- The in-degree table (`indeg[nid] = len(deps_map[nid])`). -/
def topoIndeg (dm : List (String × List String)) : List (String × Int) :=
  dm.map (fun e => (e.1, (e.2.length : Int)))

/-- The initial queue: in-degree-zero nodes in map order. -/
def topoQ0 (indeg : List (String × Int)) : List String :=
  (indeg.filter (fun e => e.2 = 0)).map (·.1)

theorem topoIndeg_keys (dm : List (String × List String)) :
    (topoIndeg dm).map (·.1) = dm.map (·.1) := by
  simp [topoIndeg, List.map_map, Function.comp]

/-- The tail of `_topological_order`: append any leftover (cyclic) nodes in
sorted id order. -/
def kahnFinish (nodes : List (String × PackageCandidate))
    (order : List String) : List String :=
  if order.length ≠ nodes.length then
    order ++ (((nodes.map (·.1)).filter (fun nid => nid ∉ order)).insertionSort
      (fun a b => pyStrLe a b))
  else order

/-- `DependencyResolver._topological_order`. -/
def topologicalOrder (chosenMap : Chosen) : List String :=
  kahnFinish (topoNodes chosenMap)
    (kahnLoop
      (topoQ0 (topoIndeg (topoDeps chosenMap (topoNodes chosenMap)))) []
      (topoDeps chosenMap (topoNodes chosenMap))
      (topoIndeg (topoDeps chosenMap (topoNodes chosenMap)))
      (by
        intro m hm
        rw [topoIndeg_keys]
        exact hm))

/-! ## `DependencyResolver.resolve` (backtracking search) -/

/-- Resolver configuration: the repository index, `max_steps`, the timeout
predicate and `allow_optional`.  `deadlineHit k` models
`deadline and time.time() > deadline` evaluated at the `k`-th node visit
(`fun _ => false` models `timeout=None`). -/
structure ResolverCtx where
  repo : RepoIndex
  maxSteps : Nat
  deadlineHit : Nat → Bool
  allowOptional : Bool

/-- Outcome of the `backtrack` helper: the `Except` models the
`RuntimeError` raises, `fails` the shared `failures` list, and `steps` the
shared `self._steps` counter. -/
structure BTRes where
  res : Except String (Option Chosen)
  fails : List String
  steps : Nat

theorem except_error_not_isOk {ε α : Type} (e : ε) :
    (Except.error e : Except ε α).isOk = false := rfl

/-- Invariant carried by every `backtrack` return value: the visit counter
advanced, stayed within `max_steps + 1`, a non-raising return never passed
the step limit, and the only raised messages are the two `RuntimeError`
texts (the timeout one only below the limit). -/
structure BTInv (ctx : ResolverCtx) (steps : Nat) (r : BTRes) : Prop where
  lt : steps < r.steps
  le1 : r.steps ≤ ctx.maxSteps + 1
  okLe : r.res.isOk = true → r.steps ≤ ctx.maxSteps
  errMsg : ∀ e, r.res = Except.error e →
    (e = "Max resolution steps exceeded" ∨
     (e = "Dependency resolution timed out" ∧ r.steps ≤ ctx.maxSteps))

/-- The candidate-loop variant of `BTInv` (the counter may stay put). -/
structure TCInv (ctx : ResolverCtx) (steps : Nat) (r : BTRes) : Prop where
  le : steps ≤ r.steps
  le1 : r.steps ≤ ctx.maxSteps + 1
  okLe : r.res.isOk = true → r.steps ≤ ctx.maxSteps
  errMsg : ∀ e, r.res = Except.error e →
    (e = "Max resolution steps exceeded" ∨
     (e = "Dependency resolution timed out" ∧ r.steps ≤ ctx.maxSteps))

mutual

/-- The recursive `backtrack(index, active_requests)` closure of
`DependencyResolver.resolve`.  The chosen dict is passed functionally (the
source's mutate-and-undo discipline restores it on every failing branch);
the step counter and failure list thread through.  The invariant bounds the
recursion and records the failure-message facts used by the theorems. -/
def backtrack (ctx : ResolverCtx) (steps : Nat) (fails : List String)
    (chosen : Chosen) (index : Nat) (active : List PackageRequirement)
    (hs : steps ≤ ctx.maxSteps) : { r : BTRes // BTInv ctx steps r } :=
  if hlim : steps + 1 > ctx.maxSteps then
    ⟨⟨Except.error "Max resolution steps exceeded", fails, steps + 1⟩,
      ⟨Nat.lt_succ_self steps, Nat.succ_le_succ hs, (fun h => nomatch h),
       fun e he => Or.inl (Except.error.inj he).symm⟩⟩
  else if hdl : ctx.deadlineHit (steps + 1) then
    ⟨⟨Except.error "Dependency resolution timed out", fails, steps + 1⟩,
      ⟨Nat.lt_succ_self steps, Nat.succ_le_succ hs, (fun h => nomatch h),
       fun e he =>
         Or.inr ⟨(Except.error.inj he).symm, Nat.le_of_not_lt hlim⟩⟩⟩
  else if hleaf : active.length ≤ index then
    if (verifySelection chosen ctx.allowOptional).1 then
      ⟨⟨Except.ok (some chosen), fails, steps + 1⟩,
        ⟨Nat.lt_succ_self steps, Nat.succ_le_succ hs,
         (fun _ => Nat.le_of_not_lt hlim), fun e he => nomatch he⟩⟩
    else
      ⟨⟨Except.ok none, fails, steps + 1⟩,
        ⟨Nat.lt_succ_self steps, Nat.succ_le_succ hs,
         (fun _ => Nat.le_of_not_lt hlim), fun e he => nomatch he⟩⟩
  else
    let req := active.get ⟨index, Nat.lt_of_not_le hleaf⟩
    match chosen.find? (fun nc => nc.1 = req.name ∨ req.name ∈ nc.2.provides)
      with
    | some nc =>
        if nc.2.satisfies req then
          let r := backtrack ctx (steps + 1) fails chosen (index + 1) active
            (Nat.le_of_not_lt hlim)
          ⟨r.val, by
            have h := r.property
            have hlt := h.lt
            exact ⟨by omega, h.le1, h.okLe, h.errMsg⟩⟩
        else
          ⟨⟨Except.ok none, fails, steps + 1⟩,
            ⟨Nat.lt_succ_self steps, Nat.succ_le_succ hs,
             (fun _ => Nat.le_of_not_lt hlim), fun e he => nomatch he⟩⟩
    | none =>
        let cands := findCandidates ctx.repo req
        if cands.isEmpty then
          ⟨⟨Except.ok none,
             fails ++ ["no_candidate_for:" ++ reqLabel req], steps + 1⟩,
            ⟨Nat.lt_succ_self steps, Nat.succ_le_succ hs,
             (fun _ => Nat.le_of_not_lt hlim), fun e he => nomatch he⟩⟩
        else
          let r := tryCands ctx (steps + 1) fails chosen index active cands
            (Nat.le_of_not_lt hlim)
          ⟨r.val, by
            have h := r.property
            have hle := h.le
            exact ⟨by omega, h.le1, h.okLe, h.errMsg⟩⟩
termination_by (ctx.maxSteps + 1 - steps, 0)
decreasing_by
  · exact Prod.Lex.left _ _ (by omega)
  · exact Prod.Lex.left _ _ (by omega)

/-- The `for cand in cands:` loop of `backtrack`: quick conflict check,
choose the candidate, splice its unsatisfied dependencies into the active
list right after the current index, recurse, and on a `None` result try the
next candidate (the source's undo of `chosen` is implicit). -/
def tryCands (ctx : ResolverCtx) (steps : Nat) (fails : List String)
    (chosen : Chosen) (index : Nat) (active : List PackageRequirement)
    (cands : List PackageCandidate) (hs : steps ≤ ctx.maxSteps) :
    { r : BTRes // TCInv ctx steps r } :=
  match cands with
  | [] => ⟨⟨Except.ok none, fails, steps⟩,
      ⟨Nat.le.refl, Nat.le_succ_of_le hs, (fun _ => hs), fun e he => nomatch he⟩⟩
  | cand :: rest =>
      if chosen.any (fun nc =>
          cand.name ∈ nc.2.conflicts ∨ nc.2.name ∈ cand.conflicts) then
        let r := tryCands ctx steps fails chosen index active rest hs
        ⟨r.val, r.property⟩
      else
        let chosen' := alSet chosen cand.name cand
        let trans := cand.depends.foldl (fun acc d =>
          let pr := reqFromString d
          if pr.name ∈ cand.optional ∧ ¬ ctx.allowOptional then acc
          else if chosen'.any (fun nc =>
              pr.name = nc.1 ∨ pr.name ∈ nc.2.provides) then acc
          else acc ++ [pr]) []
        let newActive :=
          active.take (index + 1) ++ trans ++ active.drop (index + 1)
        match backtrack ctx steps fails chosen' (index + 1) newActive hs with
        | ⟨rv, hr⟩ =>
            match hres : rv.res with
            | Except.ok none =>
                let r2 := tryCands ctx rv.steps rv.fails chosen index active
                  rest (hr.okLe (by rw [hres]; rfl))
                ⟨r2.val,
                  ⟨Nat.le_trans (Nat.le_of_lt hr.lt) r2.property.le,
                   r2.property.le1, r2.property.okLe, r2.property.errMsg⟩⟩
            | Except.ok (some _) =>
                ⟨rv, ⟨Nat.le_of_lt hr.lt, hr.le1, hr.okLe, hr.errMsg⟩⟩
            | Except.error _ =>
                ⟨rv, ⟨Nat.le_of_lt hr.lt, hr.le1, hr.okLe, hr.errMsg⟩⟩
termination_by (ctx.maxSteps + 1 - steps, cands.length + 1)
decreasing_by
  · exact Prod.Lex.right _ (by simp only [List.length_cons]; omega)
  · exact Prod.Lex.right _ (by simp only [List.length_cons]; omega)
  · exact Prod.Lex.left _ _ (by
      have := hr.lt
      omega)

end

/-- A `{name, version}` pair of a lockfile entry. -/
structure LockEntryVal where
  name : String
  version : Option String
deriving Repr, DecidableEq

/-- The lockfile contents: root-set key to `{name: {name, version}}`. -/
abbrev LockData := List (String × List (String × LockEntryVal))

/-- The lock key: comma-joined sorted root requirement names. -/
def lockKey (reqs : List PackageRequirement) : String :=
  pyJoin "," ((reqs.map (·.name)).insertionSort (fun a b => pyStrLe a b))

/-- The per-entry pinning loop of `_apply_lock`. -/
def applyLockEntries (repo : RepoIndex)
    (entries : List (String × LockEntryVal)) (chosen : Chosen) :
    Option Chosen :=
  match entries with
  | [] => some chosen
  | (name, info) :: t =>
      let spec :=
        (match info.version with
        | some v => if v ≠ "" then parseSpecifier ("==" ++ v) else none
        | none => none)
      match findBest repo { name := name, raw := "", specifier := spec } with
      | some cand => applyLockEntries repo t (alSet chosen name cand)
      | none => none

/-- `DependencyResolver._apply_lock`. -/
def applyLock (repo : RepoIndex) (lock : LockData)
    (reqs : List PackageRequirement) : Option Chosen :=
  if lock.isEmpty then none
  else
    match alGet lock (lockKey reqs) with
    | none => none
    | some entry =>
        if entry.isEmpty then none
        else applyLockEntries repo entry []

/-- `DependencyResolver._save_lock`. -/
def saveLock (lock : LockData) (reqs : List PackageRequirement)
    (chosen : Chosen) : LockData :=
  alSet lock (lockKey reqs)
    (chosen.map (fun nc => (nc.1, ⟨nc.2.name, nc.2.version⟩)))

/-- The search phase of `resolve` (after the lock shortcut): run
`backtrack(0, roots)`, catch the `RuntimeError`s, re-verify the result,
compute the order and save the lock.  Also returns the final step counter
(the number of node visits). -/
def resolveSearch (ctx : ResolverCtx) (lock : LockData)
    (reqs : List PackageRequirement) : ResolveResult × LockData × Nat :=
  let r := backtrack ctx 0 [] [] 0 reqs (Nat.zero_le _)
  match r.val.res with
  | Except.error e => (⟨false, [], [], [e]⟩, lock, r.val.steps)
  | Except.ok none =>
      let issues :=
        if r.val.fails.isEmpty then ["unable_to_resolve"] else r.val.fails
      (⟨false, [], [], issues⟩, lock, r.val.steps)
  | Except.ok (some m) =>
      let v := verifySelection m ctx.allowOptional
      if v.1 then
        (⟨true, m, topologicalOrder m, []⟩, saveLock lock reqs m, r.val.steps)
      else (⟨false, [], [], v.2⟩, lock, r.val.steps)

/-- `DependencyResolver.resolve`, returning the result, the lock state
after the call, and the number of `backtrack` node visits. -/
def resolveFull (ctx : ResolverCtx) (lock : LockData)
    (reqs : List PackageRequirement) (preferLocked : Bool) :
    ResolveResult × LockData × Nat :=
  match (if preferLocked then applyLock ctx.repo lock reqs else none) with
  | some locked =>
      if ¬ locked.isEmpty ∧ (verifySelection locked true).1 then
        (⟨true, locked, topologicalOrder locked, []⟩, lock, 0)
      else resolveSearch ctx lock reqs
  | none => resolveSearch ctx lock reqs

/-- `resolve` without the internal step counter. -/
def resolve (ctx : ResolverCtx) (lock : LockData)
    (reqs : List PackageRequirement) (preferLocked : Bool) :
    ResolveResult × LockData :=
  ((resolveFull ctx lock reqs preferLocked).1,
   (resolveFull ctx lock reqs preferLocked).2.1)

/-! ## `package.py`: installed-package database (`install_package`,
`remove_package`, `_extract_with_manifest`)

The filesystem is modelled as the set of regular-file paths (`files`);
directory members of an archive create no tracked state, matching the
manifest's files-only content.  The package DB directory is modelled by the
two keyed maps `manifests` / `metas`: a `<name>.installed.meta` or
`<name>.manifest.txt` file exists exactly when the key is present. -/

/-- One member of a `.tar.gz` artifact.  `extractOk` is the oracle for
whether `tar.extract` succeeds on this member (a mid-stream failure raises
at the first member with `extractOk = false`). -/
structure TarMember where
  name : String
  isfile : Bool
  extractOk : Bool
deriving Repr, DecidableEq

/-- An artifact file as `install_package` sees it: its path, whether the
file exists, its content digest, and the archive members in order. -/
structure Artifact where
  path : String
  present : Bool
  sha256 : String
  members : List TarMember
deriving Repr, DecidableEq

/-- The configuration values `package.py` reads. -/
structure PkgConfig where
  pkgDb : String
  installRoot : Option String
deriving Repr, DecidableEq

/-- An installed record (`<name>.installed.meta` written by
`install_package`). -/
structure InstalledMeta where
  name : String
  version : String
  artifact : String
  sha256 : String
  installRoot : String
  manifest : String
deriving Repr, DecidableEq

/-- Package-database state plus the tracked file set. -/
structure PkgState where
  files : List String
  manifests : List (String × List String)
  metas : List (String × InstalledMeta)
deriving Repr, DecidableEq

/-- `os.path.join` for the relative member names used here. -/
def pjoin (a b : String) : String := a ++ "/" ++ b

/-- `os.path.basename`. -/
def pyBasename (p : String) : String :=
  ((pySplitChar p '/').getLast?).getD p

/-- `base_name.split("-")[0]`. -/
def derivedName (base : String) : String :=
  ((pySplitChar base '-').head?).getD ""

/-- `base_name.replace(f"{name}-", "").replace(".tar.gz", "")`
(`str.replace` replaces every occurrence). -/
def derivedVersion (base : String) : String :=
  pyReplace (pyReplace base (derivedName base ++ "-") "") ".tar.gz" ""

/-- Python `a or b` on an optional string (`None` and `""` are falsy). -/
def pyOr (a : Option String) (b : String) : String :=
  match a with
  | some s => if s = "" then b else s
  | none => b

/-- `remove_package(name, purge)`.  Directory entries are not tracked, so
`purge` has no further effect in the model (every tracked manifest path is
a regular file). -/
def removePackage (name : String) (_purge : Bool) (st : PkgState) :
    Bool × PkgState :=
  match alGet st.metas name with
  | none => (false, st)
  | some _ =>
      let st1 :=
        (match alGet st.manifests name with
        | some fl =>
            { st with
              files := fl.foldl (fun fs f => fs.filter (· ≠ f)) st.files,
              manifests := alDel st.manifests name }
        | none => st)
      (true, { st1 with metas := alDel st1.metas name })

/-- `_extract_with_manifest`: walk the members in order; each successful
extraction creates the joined path, regular files are appended to the local
manifest list.  A failing member raises: the first component is then `none`
and the local list is lost to the caller, while the second component
records the files already created on disk. -/
def extractWithManifest (members : List TarMember) (destDir : String) :
    Option (List String) × List String :=
  go members [] []
where
  go : List TarMember → List String → List String →
      Option (List String) × List String
    | [], manifest, created => (some manifest, created)
    | m :: t, manifest, created =>
        if m.extractOk then
          if m.isfile then
            go t (manifest ++ [pjoin destDir m.name])
              (created ++ [pjoin destDir m.name])
          else go t manifest created
        else (none, created)

/-- `install_package`.  The `except` branch unlinks the entries of the
*outer* `extracted_files` list, which is still `[]` when
`_extract_with_manifest` itself raised mid-stream (the assignment never
completed); the manifest and installed-record writes are modelled as
always succeeding once reached. -/
def installPackage (cfg : PkgConfig) (art : Artifact)
    (destDirArg : Option String) (overwrite upgrade : Bool)
    (st : PkgState) : Except String InstalledMeta × PkgState :=
  if ¬ art.present then (Except.error "FileNotFoundError", st)
  else
    let base := pyBasename art.path
    if ¬ pyEndsWith base ".tar.gz" then (Except.error "ValueError", st)
    else
      let name := derivedName base
      let version := derivedVersion base
      let destDir := pyOr destDirArg (pyOr cfg.installRoot "/usr/local")
      let hasMeta := (alGet st.metas name).isSome
      if hasMeta ∧ ¬ overwrite ∧ ¬ upgrade then
        (Except.error "FileExistsError", st)
      else
        let st1 := if hasMeta ∧ upgrade then (removePackage name true st).2
          else st
        let er := extractWithManifest art.members destDir
        let st2 := { st1 with
          files := er.2.foldl (fun fs p => if p ∈ fs then fs else fs ++ [p])
            st1.files }
        match er.1 with
        | none => (Except.error "ExtractError", st2)
        | some extracted =>
            let manifestPath := cfg.pkgDb ++ "/" ++ name ++ ".manifest.txt"
            let im : InstalledMeta :=
              { name := name, version := version, artifact := art.path,
                sha256 := art.sha256, installRoot := destDir,
                manifest := manifestPath }
            (Except.ok im,
             { st2 with
               manifests := alSet st2.manifests name extracted,
               metas := alSet st2.metas name im })

/-- `query_package` (`_load_pkg_meta`). -/
def queryPackage (st : PkgState) (name : String) : Option InstalledMeta :=
  alGet st.metas name

/-! ## `build.py`: `build_package` effects on the artifact cache and pkg_db

The fetch/extract/patch/build/check/install stages act only inside the
per-package sandbox and the source cache; their subprocess work is
abstracted by a per-stage success oracle, while the `package` stage's
writes (the `.tar.gz` artifact and the `<name>.installed.meta` record under
`pkg_db`) are modelled exactly as in lines 288-326 of `build.py`. -/

/-- The record `build_package` writes to
`<pkg_db>/<name>.installed.meta`. -/
structure BuildRecord where
  name : String
  version : Option String
  artifact : String
  sha256 : String
  builtAt : String
  metaSource : Option String
deriving Repr, DecidableEq

/-- The loaded recipe fields `build_package` reads. -/
structure BuildMeta where
  name : String
  version : Option String
  metaPath : Option String
deriving Repr, DecidableEq

/-- Configuration for the build pipeline; `shaOf` abstracts the SHA-256 of
the produced archive. -/
structure BuildCfg where
  cacheDir : String
  pkgDb : String
  shaOf : String → String

/-- Cache / package-database world state touched by `build_package`. -/
structure BuildWorld where
  artifacts : List String
  pkgDb : List (String × BuildRecord)
  sources : List String
deriving Repr, DecidableEq

/-- `_artifact_name`: `<name>-<version or "0">.tar.gz`. -/
def artifactFileName (pm : BuildMeta) : String :=
  pm.name ++ "-" ++ (pm.version.getD "0") ++ ".tar.gz"

/-- `_artifact_path`. -/
def artifactPath (cfg : BuildCfg) (pm : BuildMeta) : String :=
  cfg.cacheDir ++ "/packages/" ++ artifactFileName pm

/-- The default stage list of `build_package`. -/
def defaultStages : List String :=
  ["fetch", "extract", "patch", "build", "check", "install", "package"]

/-- `build_package`: stages run in the fixed order, each skippable by the
`stages` set; any stage failure aborts with `BuildError` and leaves the
package DB untouched; the `package` stage writes the artifact and the
build record. -/
def buildPackage (cfg : BuildCfg) (pm : BuildMeta) (stages : List String)
    (stageOk : String → Bool) (builtAt : String) (w : BuildWorld) :
    Except String String × BuildWorld :=
  if "fetch" ∈ stages ∧ ¬ stageOk "fetch" then (Except.error "fetch", w)
  else
    let w1 := if "fetch" ∈ stages then
        { w with sources :=
            setAdd w.sources (cfg.cacheDir ++ "/sources/" ++ pm.name) }
      else w
    if "extract" ∈ stages ∧ ¬ stageOk "extract" then
      (Except.error "extract", w1)
    else if "patch" ∈ stages ∧ ¬ stageOk "patch" then
      (Except.error "patch", w1)
    else if "build" ∈ stages ∧ ¬ stageOk "build" then
      (Except.error "build", w1)
    else if "check" ∈ stages ∧ ¬ stageOk "check" then
      (Except.error "check", w1)
    else if "install" ∈ stages ∧ ¬ stageOk "install" then
      (Except.error "install", w1)
    else
      let ap := artifactPath cfg pm
      if "package" ∈ stages then
        if ¬ stageOk "package" then (Except.error "package", w1)
        else
          let brec : BuildRecord :=
            { name := pm.name, version := pm.version, artifact := ap,
              sha256 := cfg.shaOf ap, builtAt := builtAt,
              metaSource := pm.metaPath }
          (Except.ok ap,
           { w1 with artifacts := setAdd w1.artifacts ap,
                     pkgDb := alSet w1.pkgDb pm.name brec })
      else (Except.ok ap, w1)

/-! ## `meta.py`: `validate_meta` -/

/-- Structured-data values as loaded from a recipe file. -/
inductive MVal
  | vStr (s : String)
  | vList (l : List MVal)
  | vDict (d : List (String × MVal))
  | vNull
  | vInt (n : Int)

/-- A loaded recipe mapping. -/
abbrev MetaDict := List (String × MVal)

/-- `field not in meta or meta[field] is None`. -/
def requiredMissing (m : MetaDict) (field : String) : Bool :=
  match alGet m field with
  | none => true
  | some MVal.vNull => true
  | some _ => false

/-- Does a source list item pass (`isinstance(s, dict) and "url" in s`)? -/
def sourceItemOk : MVal → Bool
  | MVal.vDict d => (alGet d "url").isSome
  | _ => false

/-- The `source` shape check of `validate_meta`. -/
def sourceShapeCheck (source : MVal) : Except String Unit :=
  match source with
  | MVal.vDict d =>
      if (alGet d "url").isSome then Except.ok ()
      else Except.error "MetaError:source.url-required"
  | MVal.vList l =>
      if l.all sourceItemOk then Except.ok ()
      else Except.error "MetaError:source-list-item-needs-url"
  | _ => Except.error "MetaError:source-must-be-dict-or-list"

/-- `validate_meta` (the `MetaError` message texts are abbreviated; only
which inputs raise matters). -/
def validateMeta (m : MetaDict) : Except String Unit :=
  if requiredMissing m "name" then Except.error "MetaError:required:name"
  else if requiredMissing m "version" then
    Except.error "MetaError:required:version"
  else if requiredMissing m "source" then
    Except.error "MetaError:required:source"
  else
    match (alGet m "version").getD (MVal.vStr "") with
    | MVal.vStr v =>
        if pyTrim v = "" then Except.error "MetaError:invalid-version"
        else sourceShapeCheck ((alGet m "source").getD MVal.vNull)
    | _ => Except.error "MetaError:invalid-version"

/-! ## `sandbox.py`: the environment and logging of `Sandbox.run` /
`run_in_sandbox` -/

/-- The subprocess environment `Sandbox.run` passes:
`env=env or os.environ` (an absent or empty `env` dict falls back to the
parent environment, unmodified). -/
def sandboxRunEnv (envArg : Option (List (String × String)))
    (osEnviron : List (String × String)) : List (String × String) :=
  match envArg with
  | some e => if e.isEmpty then osEnviron else e
  | none => osEnviron

/-- `run_in_sandbox(name, cmd)` forwards to `sb.run(cmd, log_name=name)`
with no `env` argument, so the subprocess environment is the parent
environment. -/
def runInSandboxEnv (osEnviron : List (String × String)) :
    List (String × String) :=
  sandboxRunEnv none osEnviron

/-- The per-sandbox log file `Sandbox.run` opens when `log_name` is set;
`run_in_sandbox` passes the sandbox name. -/
def sandboxLogPath (baseDir name : String) : String :=
  baseDir ++ "/logs/" ++ name ++ ".log"

/-! ## Small association-list and fold lemmas used by the claim theorems -/

theorem alGet_alSet_self {β : Type} (l : List (String × β)) (k : String)
    (v : β) : alGet (alSet l k v) k = some v := by
  induction l with
  | nil => simp [alSet, alGet_cons_self]
  | cons h t ih =>
      obtain ⟨k', v'⟩ := h
      by_cases hk : k' = k
      · simp only [alSet, if_pos hk]
        exact alGet_cons_self k v t
      · simp only [alSet, if_neg hk]
        rw [alGet_cons_ne k' k v' _ hk]
        exact ih

theorem alGet_alDel_self {β : Type} (l : List (String × β)) (k : String) :
    alGet (alDel l k) k = none := by
  induction l with
  | nil => simp [alDel, alGet]
  | cons h t ih =>
      obtain ⟨k', v'⟩ := h
      by_cases hk : k' = k
      · simp only [alDel, List.filter]
        have : (decide ((k', v').1 ≠ k)) = false := by simp [hk]
        rw [this]
        exact ih
      · simp only [alDel, List.filter]
        have : (decide ((k', v').1 ≠ k)) = true := by simp [hk]
        rw [this]
        rw [alGet_cons_ne k' k v' _ hk]
        exact ih

theorem setAdd_mem_self (l : List String) (x : String) : x ∈ setAdd l x := by
  by_cases h : x ∈ l <;> simp [setAdd, h]

theorem foldl_filter_preserves_not_mem (t : List String) :
    ∀ gs (p : String), p ∉ gs →
      p ∉ t.foldl (fun (fs : List String) (f : String) =>
        fs.filter (· ≠ f)) gs := by
  induction t with
  | nil =>
      intro gs p h
      simpa using h
  | cons f' t' ih =>
      intro gs p h
      simp only [List.foldl_cons]
      exact ih _ p (fun hmem => h (List.mem_of_mem_filter hmem))

theorem foldl_filter_not_mem (p : String) :
    ∀ (fl : List String), p ∈ fl →
      ∀ fs, p ∉ fl.foldl (fun (fs : List String) (f : String) =>
        fs.filter (· ≠ f)) fs := by
  intro fl
  induction fl with
  | nil =>
      intro h
      simp at h
  | cons f t ih =>
      intro hp fs
      rcases List.mem_cons.mp hp with h1 | h2
      · subst h1
        simp only [List.foldl_cons]
        exact foldl_filter_preserves_not_mem t _ _ (by simp)
      · simp only [List.foldl_cons]
        exact ih h2 _

theorem foldl_addset_not_mem (p : String) :
    ∀ (created : List String), p ∉ created → ∀ fs, p ∉ fs →
      p ∉ created.foldl (fun (fs : List String) (p : String) =>
        if p ∈ fs then fs else fs ++ [p]) fs := by
  intro created
  induction created with
  | nil =>
      intro _ fs hf
      simpa using hf
  | cons c t ih =>
      intro hc fs hf
      simp only [List.foldl_cons]
      have hc' : p ∉ t := fun h => hc (List.mem_cons_of_mem c h)
      have hcp : p ≠ c := fun h => hc (h ▸ List.mem_cons_self c t)
      by_cases hm : c ∈ fs
      · simp only [if_pos hm]
        exact ih hc' fs hf
      · simp only [if_neg hm]
        refine ih hc' _ ?_
        intro hmem
        rcases List.mem_append.mp hmem with h1 | h2
        · exact hf h1
        · simp at h2
          exact hcp h2

/-- The file paths an archive contributes when fully extracted. -/
def memberFiles (members : List TarMember) (destDir : String) :
    List String :=
  members.filterMap
    (fun m => if m.isfile then some (pjoin destDir m.name) else none)

theorem extractWithManifest_go_all_ok (destDir : String)
    (members : List TarMember)
    (h : ∀ m ∈ members, m.extractOk = true) :
    ∀ acc created, extractWithManifest.go destDir members acc created =
      (some (acc ++ memberFiles members destDir),
       created ++ memberFiles members destDir) := by
  induction members with
  | nil => intro acc created; simp [extractWithManifest.go, memberFiles]
  | cons m t ih =>
      intro acc created
      have hm : m.extractOk = true := h m (by simp)
      have ht : ∀ x ∈ t, x.extractOk = true := fun x hx => h x (by simp [hx])
      by_cases hf : m.isfile
      · simp only [extractWithManifest.go, hm, if_true, hf, memberFiles,
          List.filterMap_cons, ih ht]
        simp [memberFiles]
      · simp only [extractWithManifest.go, hm, if_true, hf, memberFiles,
          List.filterMap_cons, ih ht]
        simp [hf, memberFiles]

/-- On a fully extractable archive, `_extract_with_manifest` returns the
file list, which equals the set of created paths. -/
theorem extractWithManifest_all_ok (members : List TarMember)
    (destDir : String) (h : ∀ m ∈ members, m.extractOk = true) :
    extractWithManifest members destDir =
      (some (memberFiles members destDir), memberFiles members destDir) := by
  have := extractWithManifest_go_all_ok destDir members h [] []
  simpa [extractWithManifest] using this

/-! ## Fuel-based evaluators

The searches above are defined by well-founded recursion, which the kernel
cannot unfold on concrete inputs.  The following structurally recursive
twins take an explicit fuel parameter and return `none` on exhaustion; the
equivalence theorems transfer any `some` result to the real definitions,
so concrete runs can be computed by `decide`. -/

/-- Fueled twin of `kahnLoop`. -/
def kahnLoopF (fuel : Nat) (q : List String) (order : List String)
    (deps : List (String × List String)) (indeg : List (String × Int)) :
    Option (List String) :=
  match fuel, q with
  | _, [] => some order
  | 0, _ :: _ => none
  | Nat.succ fuel, n :: qt =>
      kahnLoopF fuel (qt ++ (kahnStep n deps indeg).2.2) (order ++ [n])
        (kahnStep n deps indeg).1 (kahnStep n deps indeg).2.1

theorem kahnLoopF_eq (fuel : Nat) :
    ∀ (q order : List String) deps indeg hk out,
      kahnLoopF fuel q order deps indeg = some out →
      kahnLoop q order deps indeg hk = out := by
  induction fuel with
  | zero =>
      intro q order deps indeg hk out h
      match q with
      | [] =>
          simp only [kahnLoopF] at h
          rw [kahnLoop]
          exact Option.some.inj h
      | n :: qt => simp [kahnLoopF] at h
  | succ fuel ih =>
      intro q order deps indeg hk out h
      match q with
      | [] =>
          simp only [kahnLoopF] at h
          rw [kahnLoop]
          exact Option.some.inj h
      | n :: qt =>
          simp only [kahnLoopF] at h
          rw [kahnLoop]
          exact ih _ _ _ _ _ _ h

/-- Fueled twin of `topologicalOrder`. -/
def topologicalOrderF (fuel : Nat) (chosenMap : Chosen) :
    Option (List String) :=
  (kahnLoopF fuel
      (topoQ0 (topoIndeg (topoDeps chosenMap (topoNodes chosenMap)))) []
      (topoDeps chosenMap (topoNodes chosenMap))
      (topoIndeg (topoDeps chosenMap (topoNodes chosenMap)))).map
    (kahnFinish (topoNodes chosenMap))

theorem topologicalOrderF_eq (fuel : Nat) (chosenMap : Chosen)
    (out : List String) (h : topologicalOrderF fuel chosenMap = some out) :
    topologicalOrder chosenMap = out := by
  unfold topologicalOrderF at h
  unfold topologicalOrder
  cases hk : kahnLoopF fuel
      (topoQ0 (topoIndeg (topoDeps chosenMap (topoNodes chosenMap)))) []
      (topoDeps chosenMap (topoNodes chosenMap))
      (topoIndeg (topoDeps chosenMap (topoNodes chosenMap))) with
  | none =>
      rw [hk] at h
      exact Option.noConfusion h
  | some order =>
      rw [hk] at h
      rw [kahnLoopF_eq fuel _ _ _ _ _ _ hk]
      exact Option.some.inj h

mutual

/-- Fueled twin of `backtrack`. -/
def backtrackF (ctx : ResolverCtx) (fuel : Nat) (steps : Nat)
    (fails : List String) (chosen : Chosen) (index : Nat)
    (active : List PackageRequirement) : Option BTRes :=
  match fuel with
  | 0 => none
  | Nat.succ fuel =>
      if steps + 1 > ctx.maxSteps then
        some ⟨Except.error "Max resolution steps exceeded", fails, steps + 1⟩
      else if ctx.deadlineHit (steps + 1) then
        some ⟨Except.error "Dependency resolution timed out", fails,
          steps + 1⟩
      else if hleaf : active.length ≤ index then
        if (verifySelection chosen ctx.allowOptional).1 then
          some ⟨Except.ok (some chosen), fails, steps + 1⟩
        else some ⟨Except.ok none, fails, steps + 1⟩
      else
        let req := active.get ⟨index, Nat.lt_of_not_le hleaf⟩
        match chosen.find?
            (fun nc => nc.1 = req.name ∨ req.name ∈ nc.2.provides) with
        | some nc =>
            if nc.2.satisfies req then
              backtrackF ctx fuel (steps + 1) fails chosen (index + 1) active
            else some ⟨Except.ok none, fails, steps + 1⟩
        | none =>
            let cands := findCandidates ctx.repo req
            if cands.isEmpty then
              some ⟨Except.ok none,
                fails ++ ["no_candidate_for:" ++ reqLabel req], steps + 1⟩
            else
              tryCandsF ctx fuel (steps + 1) fails chosen index active cands

/-- Fueled twin of `tryCands`. -/
def tryCandsF (ctx : ResolverCtx) (fuel : Nat) (steps : Nat)
    (fails : List String) (chosen : Chosen) (index : Nat)
    (active : List PackageRequirement) (cands : List PackageCandidate) :
    Option BTRes :=
  match fuel with
  | 0 => none
  | Nat.succ fuel =>
      match cands with
      | [] => some ⟨Except.ok none, fails, steps⟩
      | cand :: rest =>
          if chosen.any (fun nc =>
              cand.name ∈ nc.2.conflicts ∨ nc.2.name ∈ cand.conflicts) then
            tryCandsF ctx fuel steps fails chosen index active rest
          else
            let chosen' := alSet chosen cand.name cand
            let trans := cand.depends.foldl (fun acc d =>
              let pr := reqFromString d
              if pr.name ∈ cand.optional ∧ ¬ ctx.allowOptional then acc
              else if chosen'.any (fun nc =>
                  pr.name = nc.1 ∨ pr.name ∈ nc.2.provides) then acc
              else acc ++ [pr]) []
            let newActive :=
              active.take (index + 1) ++ trans ++ active.drop (index + 1)
            match backtrackF ctx fuel steps fails chosen' (index + 1)
                newActive with
            | none => none
            | some rv =>
                match rv.res with
                | Except.ok none =>
                    tryCandsF ctx fuel rv.steps rv.fails chosen index active
                      rest
                | Except.ok (some _) => some rv
                | Except.error _ => some rv

end

/-- Any result the fueled search produces agrees with the well-founded
search (for both halves of the mutual recursion). -/
theorem searchF_eq (ctx : ResolverCtx) : ∀ fuel : Nat,
    (∀ steps fails chosen index active r (hs : steps ≤ ctx.maxSteps),
        backtrackF ctx fuel steps fails chosen index active = some r →
        (backtrack ctx steps fails chosen index active hs).val = r) ∧
    (∀ steps fails chosen index active cands r (hs : steps ≤ ctx.maxSteps),
        tryCandsF ctx fuel steps fails chosen index active cands = some r →
        (tryCands ctx steps fails chosen index active cands hs).val = r) := by
  intro fuel
  induction fuel with
  | zero =>
      constructor
      · intro steps fails chosen index active r hs h
        exact Option.noConfusion h
      · intro steps fails chosen index active cands r hs h
        exact Option.noConfusion h
  | succ fuel ih =>
      constructor
      · intro steps fails chosen index active r hs hF
        simp only [backtrackF] at hF
        unfold backtrack
        by_cases h1 : steps + 1 > ctx.maxSteps
        · rw [if_pos h1] at hF
          rw [dif_pos h1]
          exact Option.some.inj hF
        · rw [if_neg h1] at hF
          rw [dif_neg h1]
          by_cases h2 : ctx.deadlineHit (steps + 1) = true
          · rw [if_pos h2] at hF
            rw [dif_pos h2]
            exact Option.some.inj hF
          · rw [if_neg h2] at hF
            rw [dif_neg h2]
            by_cases h3 : active.length ≤ index
            · rw [dif_pos h3] at hF
              rw [dif_pos h3]
              by_cases h4 : (verifySelection chosen ctx.allowOptional).1 =
                  true
              · rw [if_pos h4] at hF
                rw [if_pos h4]
                exact Option.some.inj hF
              · rw [if_neg h4] at hF
                rw [if_neg h4]
                exact Option.some.inj hF
            · simp only [dif_neg h3] at hF
              simp only [dif_neg h3]
              cases hfind : chosen.find? (fun nc =>
                  nc.1 = (active.get ⟨index, Nat.lt_of_not_le h3⟩).name ∨
                  (active.get ⟨index, Nat.lt_of_not_le h3⟩).name ∈
                    nc.2.provides) with
              | some nc =>
                  rw [hfind] at hF
                  dsimp only at hF ⊢
                  by_cases hsat : nc.2.satisfies
                      (active.get ⟨index, Nat.lt_of_not_le h3⟩) = true
                  · rw [if_pos hsat] at hF ⊢
                    exact ih.1 _ _ _ _ _ _ _ hF
                  · rw [if_neg hsat] at hF ⊢
                    exact Option.some.inj hF
              | none =>
                  rw [hfind] at hF
                  dsimp only at hF ⊢
                  by_cases hemp : (findCandidates ctx.repo
                      (active.get ⟨index, Nat.lt_of_not_le h3⟩)).isEmpty =
                      true
                  · rw [if_pos hemp] at hF ⊢
                    exact Option.some.inj hF
                  · rw [if_neg hemp] at hF ⊢
                    exact ih.2 _ _ _ _ _ _ _ _ hF
      · intro steps fails chosen index active cands r hs hF
        simp only [tryCandsF] at hF
        cases cands with
        | nil =>
            unfold tryCands
            exact Option.some.inj hF
        | cons cand rest =>
            unfold tryCands
            dsimp only at hF ⊢
            by_cases hconf : chosen.any (fun nc =>
                cand.name ∈ nc.2.conflicts ∨ nc.2.name ∈ cand.conflicts) =
                true
            · rw [if_pos hconf] at hF ⊢
              exact ih.2 _ _ _ _ _ _ _ hs hF
            · rw [if_neg hconf] at hF ⊢
              cases hb : backtrackF ctx fuel steps fails
                  (alSet chosen cand.name cand) (index + 1)
                  (active.take (index + 1) ++
                    cand.depends.foldl (fun acc d =>
                      let pr := reqFromString d
                      if pr.name ∈ cand.optional ∧ ¬ ctx.allowOptional then
                        acc
                      else if (alSet chosen cand.name cand).any (fun nc =>
                          pr.name = nc.1 ∨ pr.name ∈ nc.2.provides) then acc
                      else acc ++ [pr]) [] ++
                    active.drop (index + 1)) with
              | none =>
                  rw [hb] at hF
                  exact Option.noConfusion hF
              | some rvF =>
                  rw [hb] at hF
                  have hval := ih.1 _ _ _ _ _ _ hs hb
                  have hbt : backtrack ctx steps fails
                      (alSet chosen cand.name cand) (index + 1)
                      (active.take (index + 1) ++
                        cand.depends.foldl (fun acc d =>
                          let pr := reqFromString d
                          if pr.name ∈ cand.optional ∧ ¬ ctx.allowOptional
                            then acc
                          else if (alSet chosen cand.name cand).any (fun nc =>
                              pr.name = nc.1 ∨ pr.name ∈ nc.2.provides) then
                            acc
                          else acc ++ [pr]) [] ++
                        active.drop (index + 1)) hs =
                      ⟨rvF, by
                        rw [← hval]
                        exact (backtrack ctx steps fails
                          (alSet chosen cand.name cand) (index + 1) _ hs).property⟩ :=
                    Subtype.ext hval
                  rw [hbt]
                  dsimp only at hF ⊢
                  split
                  · rename_i hres
                    rw [hres] at hF
                    exact ih.2 _ _ _ _ _ _ _ _ hF
                  · rename_i m hres
                    rw [hres] at hF
                    exact Option.some.inj hF
                  · rename_i e hres
                    rw [hres] at hF
                    exact Option.some.inj hF

/-- Fueled twin of `resolveSearch`. -/
def resolveSearchF (ctx : ResolverCtx) (lock : LockData)
    (reqs : List PackageRequirement) (fuel : Nat) :
    Option (ResolveResult × LockData × Nat) :=
  match backtrackF ctx fuel 0 [] [] 0 reqs with
  | none => none
  | some rv =>
      match rv.res with
      | Except.error e => some (⟨false, [], [], [e]⟩, lock, rv.steps)
      | Except.ok none =>
          some (⟨false, [], [],
            if rv.fails.isEmpty then ["unable_to_resolve"] else rv.fails⟩,
            lock, rv.steps)
      | Except.ok (some m) =>
          if (verifySelection m ctx.allowOptional).1 then
            match topologicalOrderF fuel m with
            | none => none
            | some ord =>
                some (⟨true, m, ord, []⟩, saveLock lock reqs m, rv.steps)
          else
            some (⟨false, [], [], (verifySelection m ctx.allowOptional).2⟩,
              lock, rv.steps)

theorem resolveSearchF_eq (ctx : ResolverCtx) (lock : LockData)
    (reqs : List PackageRequirement) (fuel : Nat)
    (out : ResolveResult × LockData × Nat)
    (h : resolveSearchF ctx lock reqs fuel = some out) :
    resolveSearch ctx lock reqs = out := by
  unfold resolveSearchF at h
  unfold resolveSearch
  cases hb : backtrackF ctx fuel 0 [] [] 0 reqs with
  | none =>
      rw [hb] at h
      exact Option.noConfusion h
  | some rv =>
      rw [hb] at h
      dsimp only at h
      have hval : (backtrack ctx 0 [] [] 0 reqs (Nat.zero_le _)).val = rv :=
        (searchF_eq ctx fuel).1 _ _ _ _ _ _ _ hb
      dsimp only
      rw [hval]
      cases hres : rv.res with
      | error e =>
          rw [hres] at h
          dsimp only at h ⊢
          exact Option.some.inj h
      | ok o =>
          cases o with
          | none =>
              rw [hres] at h
              dsimp only at h ⊢
              exact Option.some.inj h
          | some m =>
              rw [hres] at h
              dsimp only at h ⊢
              by_cases hv : (verifySelection m ctx.allowOptional).1 = true
              · rw [if_pos hv] at h ⊢
                cases ht : topologicalOrderF fuel m with
                | none =>
                    rw [ht] at h
                    exact Option.noConfusion h
                | some ord =>
                    rw [ht] at h
                    rw [topologicalOrderF_eq fuel m ord ht]
                    exact Option.some.inj h
              · rw [if_neg hv] at h ⊢
                exact Option.some.inj h

/-- Fueled twin of `resolveFull`. -/
def resolveFullF (ctx : ResolverCtx) (lock : LockData)
    (reqs : List PackageRequirement) (preferLocked : Bool) (fuel : Nat) :
    Option (ResolveResult × LockData × Nat) :=
  match (if preferLocked then applyLock ctx.repo lock reqs else none) with
  | some locked =>
      if ¬ locked.isEmpty ∧ (verifySelection locked true).1 then
        match topologicalOrderF fuel locked with
        | none => none
        | some ord => some (⟨true, locked, ord, []⟩, lock, 0)
      else resolveSearchF ctx lock reqs fuel
  | none => resolveSearchF ctx lock reqs fuel

theorem resolveFullF_eq (ctx : ResolverCtx) (lock : LockData)
    (reqs : List PackageRequirement) (preferLocked : Bool) (fuel : Nat)
    (out : ResolveResult × LockData × Nat)
    (h : resolveFullF ctx lock reqs preferLocked fuel = some out) :
    resolveFull ctx lock reqs preferLocked = out := by
  unfold resolveFullF at h
  unfold resolveFull
  cases hl : (if preferLocked then applyLock ctx.repo lock reqs else none)
      with
  | none =>
      rw [hl] at h
      exact resolveSearchF_eq ctx lock reqs fuel out h
  | some locked =>
      rw [hl] at h
      dsimp only at h ⊢
      by_cases hv : ¬ locked.isEmpty ∧ (verifySelection locked true).1 = true
      · rw [if_pos hv] at h ⊢
        cases ht : topologicalOrderF fuel locked with
        | none =>
            rw [ht] at h
            exact Option.noConfusion h
        | some ord =>
            rw [ht] at h
            rw [topologicalOrderF_eq fuel locked ord ht]
            exact Option.some.inj h
      · rw [if_neg hv] at h ⊢
        exact resolveSearchF_eq ctx lock reqs fuel out h


/-! ## Claim C1 -/

/-- The artifact of claim C1: the second member fails mid-extraction. -/
def c1Artifact : Artifact :=
  { path := "/cache/packages/hello-1.0.tar.gz", present := true,
    sha256 := "f00d",
    members := [⟨"bin/hello", true, true⟩, ⟨"share/doc/README", true, false⟩] }

/-- The configuration of claim C1. -/
def c1Cfg : PkgConfig := { pkgDb := "/db", installRoot := none }

/-- C1: the spec requires that on mid-stream extraction failure every file
already extracted is unlinked before the error propagates.  The code's
`except` branch iterates the outer `extracted_files`, which is still empty
because `_extract_with_manifest` raised before returning its local list, so
the partially extracted file `/usr/bin/hello` is left on disk.  The other
clauses of the claim hold: no manifest and no installed record are
written.  This evaluates `install_package` at the failing input. -/
theorem c1_midstream_failure_leaves_partial_files :
    (installPackage c1Cfg c1Artifact (some "/usr") false false
        ⟨[], [], []⟩).1 = Except.error "ExtractError" ∧
    (installPackage c1Cfg c1Artifact (some "/usr") false false
        ⟨[], [], []⟩).2 =
      { files := ["/usr/bin/hello"], manifests := [], metas := [] } := by
  constructor <;> rfl

/-! ## Claim C2 (counterexample part) -/

/-- Candidate `a-1`, depending on `b`, for the C2 cycle. -/
def c2A : PackageCandidate := ⟨"a", some "1", [], ["b"], [], [], []⟩

/-- Candidate `b-1`, depending back on `a`, for the C2 cycle. -/
def c2B : PackageCandidate := ⟨"b", some "1", [], ["a"], [], [], []⟩

/-- Resolver context over the two-candidate cyclic repository. -/
def c2Ctx : ResolverCtx := ⟨buildIndex [c2A, c2B], 50, fun _ => false, true⟩

/-- C2 counterexample: resolving `a` over the cyclic repository succeeds
(`ok = true`) with chosen `{a, b}`, yet the returned order is
`["a-1", "b-1"]`: `a-1` depends non-optionally on `b-1` through the chosen
set (`b-1` is the chosen provider for `a`'s depend `"b"`), but `b-1` does
not precede `a-1` — Kahn's queue never fires on the cycle and the fallback
appends the remaining nodes in sorted id order. -/
theorem c2_counterexample_cycle :
    (resolveFull c2Ctx [] [⟨"a", "a", none⟩] true).1.ok = true ∧
    (resolveFull c2Ctx [] [⟨"a", "a", none⟩] true).1.chosen =
      [("a", c2A), ("b", c2B)] ∧
    (resolveFull c2Ctx [] [⟨"a", "a", none⟩] true).1.order =
      ["a-1", "b-1"] ∧
    "b" ∈ c2A.depends ∧ c2A.optional = [] ∧
    c2B.satisfies (reqFromString "b") = true ∧
    c2B.cid = "b-1" ∧ c2A.cid = "a-1" ∧
    ¬ (["a-1", "b-1"].indexOf "b-1" < ["a-1", "b-1"].indexOf "a-1") := by
  have h : resolveFull c2Ctx [] [⟨"a", "a", none⟩] true =
      (⟨true, [("a", c2A), ("b", c2B)], ["a-1", "b-1"], []⟩,
        [("a", [("a", ⟨"a", some "1"⟩), ("b", ⟨"b", some "1"⟩)])], 3) :=
    resolveFullF_eq c2Ctx [] [⟨"a", "a", none⟩] true 60 _ (by rfl)
  refine ⟨by rw [h], by rw [h], by rw [h], ?_, ?_, ?_, ?_, ?_, ?_⟩ <;> decide

/-! ## Claim C3 -/

theorem resolveSearch_steps (ctx : ResolverCtx) (lock : LockData)
    (reqs : List PackageRequirement) :
    (resolveSearch ctx lock reqs).2.2 =
      (backtrack ctx 0 [] [] 0 reqs (Nat.zero_le _)).val.steps := by
  unfold resolveSearch
  cases hres : (backtrack ctx 0 [] [] 0 reqs (Nat.zero_le _)).val.res with
  | error e =>
      dsimp only
      rw [hres]
  | ok o =>
      cases o with
      | none =>
          dsimp only
          rw [hres]
      | some m =>
          dsimp only
          rw [hres]
          dsimp only
          by_cases hv : (verifySelection m ctx.allowOptional).1 = true
          · rw [if_pos hv]
          · rw [if_neg hv]

/-- C3 (amended): the resolver always terminates, making at most
`max_steps + 1` node visits (the limit-detecting visit included — the
claim's `max_steps` bound is off by one); when the step limit fires, the
search raises exactly `"Max resolution steps exceeded"`, when the deadline
fires it raises `"Dependency resolution timed out"`, and either raise
surfaces as a failed result whose `issues` list holds that message (not
the claim's `"step_limit"` / `"timeout"` literals). -/
theorem c3_step_bound_and_failure_messages (ctx : ResolverCtx)
    (lock : LockData) (reqs : List PackageRequirement)
    (preferLocked : Bool) :
    (resolveFull ctx lock reqs preferLocked).2.2 ≤ ctx.maxSteps + 1 ∧
    (∀ e : String,
      (backtrack ctx 0 [] [] 0 reqs (Nat.zero_le _)).val.res =
          Except.error e →
        resolveSearch ctx lock reqs =
          (⟨false, [], [], [e]⟩, lock,
            (backtrack ctx 0 [] [] 0 reqs (Nat.zero_le _)).val.steps) ∧
        (e = "Max resolution steps exceeded" ∨
         e = "Dependency resolution timed out")) ∧
    ((backtrack ctx 0 [] [] 0 reqs (Nat.zero_le _)).val.steps =
        ctx.maxSteps + 1 →
      (backtrack ctx 0 [] [] 0 reqs (Nat.zero_le _)).val.res =
        Except.error "Max resolution steps exceeded") := by
  refine ⟨?_, ?_, ?_⟩
  · unfold resolveFull
    cases hl : (if preferLocked then applyLock ctx.repo lock reqs else none)
        with
    | none =>
        dsimp only
        rw [resolveSearch_steps]
        exact (backtrack ctx 0 [] [] 0 reqs (Nat.zero_le _)).property.le1
    | some locked =>
        dsimp only
        by_cases hv : ¬ locked.isEmpty ∧ (verifySelection locked true).1 =
            true
        · rw [if_pos hv]
          exact Nat.zero_le _
        · rw [if_neg hv]
          rw [resolveSearch_steps]
          exact (backtrack ctx 0 [] [] 0 reqs (Nat.zero_le _)).property.le1
  · intro e hres
    constructor
    · unfold resolveSearch
      dsimp only
      rw [hres]
    · rcases (backtrack ctx 0 [] [] 0 reqs
          (Nat.zero_le _)).property.errMsg e hres with h1 | h2
      · exact Or.inl h1
      · exact Or.inr h2.1
  · intro hsteps
    cases hres : (backtrack ctx 0 [] [] 0 reqs (Nat.zero_le _)).val.res with
    | ok o =>
        have := (backtrack ctx 0 [] [] 0 reqs
          (Nat.zero_le _)).property.okLe (by rw [hres]; rfl)
        omega
    | error e =>
        rcases (backtrack ctx 0 [] [] 0 reqs
            (Nat.zero_le _)).property.errMsg e hres with h1 | h2
        · rw [h1]
        · omega

/-- A one-candidate repository for the C3 counterexample. -/
def c3A : PackageCandidate := ⟨"a", some "1", [], [], [], [], []⟩

/-- Resolver context with `max_steps = 0`. -/
def c3Ctx : ResolverCtx := ⟨buildIndex [c3A], 0, fun _ => false, true⟩

/-- C3 counterexample: with `max_steps = 0` the resolver makes one node
visit (exceeding the claimed `max_steps` visit bound) and fails with the
issue string `"Max resolution steps exceeded"`, not the claimed reason
`"step_limit"`. -/
theorem c3_counterexample_reason_strings :
    resolveFull c3Ctx [] [⟨"a", "a", none⟩] true =
      (⟨false, [], [], ["Max resolution steps exceeded"]⟩, [], 1) ∧
    "step_limit" ∉ (resolveFull c3Ctx [] [⟨"a", "a", none⟩] true).1.issues ∧
    c3Ctx.maxSteps = 0 := by
  have h := resolveFullF_eq c3Ctx [] [⟨"a", "a", none⟩] true 5 _ (by rfl)
  exact ⟨h, by rw [h]; decide, rfl⟩

/-- Witness for C3: the amended theorem applied at the `max_steps = 0`
context, with the raise hypothesis discharged by computing the search. -/
theorem c3_step_bound_and_failure_messages_witness :
    ((backtrack c3Ctx 0 [] [] 0 [⟨"a", "a", none⟩]
        (Nat.zero_le _)).val.res =
      Except.error "Max resolution steps exceeded") ∧
    (resolveSearch c3Ctx [] [⟨"a", "a", none⟩] =
      (⟨false, [], [], ["Max resolution steps exceeded"]⟩, [],
        (backtrack c3Ctx 0 [] [] 0 [⟨"a", "a", none⟩]
          (Nat.zero_le _)).val.steps) ∧
     ("Max resolution steps exceeded" = "Max resolution steps exceeded" ∨
      "Max resolution steps exceeded" =
        "Dependency resolution timed out")) := by
  have hval : (backtrack c3Ctx 0 [] [] 0 [⟨"a", "a", none⟩]
      (Nat.zero_le _)).val =
      ⟨Except.error "Max resolution steps exceeded", [], 1⟩ :=
    (searchF_eq c3Ctx 5).1 _ _ _ _ _ _ (Nat.zero_le _) (by rfl)
  have hres : (backtrack c3Ctx 0 [] [] 0 [⟨"a", "a", none⟩]
      (Nat.zero_le _)).val.res =
      Except.error "Max resolution steps exceeded" := by rw [hval]
  exact ⟨hres,
    (c3_step_bound_and_failure_messages c3Ctx [] [⟨"a", "a", none⟩]
      true).2.1 _ hres⟩

/-! ## Claim C6 -/

/-- The build configuration of claim C6. -/
def c6Cfg : BuildCfg :=
  { cacheDir := "/cache", pkgDb := "/db", shaOf := fun _ => "c0ffee" }

/-- The recipe fields of claim C6. -/
def c6Meta : BuildMeta :=
  { name := "hello", version := some "1.0",
    metaPath := some "/repo/base/hello/hello.meta" }

/-- The record `build_package` leaves in the package DB for C6. -/
def c6Record : BuildRecord :=
  { name := "hello", version := some "1.0",
    artifact := "/cache/packages/hello-1.0.tar.gz", sha256 := "c0ffee",
    builtAt := "2026-01-01 00:00:00",
    metaSource := some "/repo/base/hello/hello.meta" }

/-- C6 counterexample: a successful `build_package` run produces the
artifact, but — contrary to the claim — the package-database state queried
for the name is *not* unchanged: the `package` stage writes
`<pkg_db>/hello.installed.meta` (with `built_at` / `meta_source` fields),
so the query goes from `none` to the build record. -/
theorem c6_counterexample_build_writes_record :
    (buildPackage c6Cfg c6Meta defaultStages (fun _ => true)
        "2026-01-01 00:00:00" ⟨[], [], []⟩).1 =
      Except.ok "/cache/packages/hello-1.0.tar.gz" ∧
    alGet (⟨[], [], []⟩ : BuildWorld).pkgDb "hello" = none ∧
    alGet (buildPackage c6Cfg c6Meta defaultStages (fun _ => true)
        "2026-01-01 00:00:00" ⟨[], [], []⟩).2.pkgDb "hello" =
      some c6Record := by
  refine ⟨rfl, rfl, rfl⟩

/-- C6 (amended): a successful `build_package` run with the `package`
stage enabled produces the artifact `<cache>/packages/<name>-<version>.tar.gz`
*and* writes a build record under `<pkg_db>/<name>.installed.meta`
(fields `name, version, artifact, sha256, built_at, meta_source`); build
does not extract files or write a manifest, but the package-database entry
for the name is created or overwritten. -/
theorem c6_build_artifact_and_record (cfg : BuildCfg) (pm : BuildMeta)
    (stages : List String) (stageOk : String → Bool) (builtAt : String)
    (w : BuildWorld) (hst : ∀ s ∈ stages, stageOk s = true)
    (hpkg : "package" ∈ stages) :
    (buildPackage cfg pm stages stageOk builtAt w).1 =
      Except.ok (artifactPath cfg pm) ∧
    artifactPath cfg pm ∈
      (buildPackage cfg pm stages stageOk builtAt w).2.artifacts ∧
    alGet (buildPackage cfg pm stages stageOk builtAt w).2.pkgDb pm.name =
      some { name := pm.name, version := pm.version,
             artifact := artifactPath cfg pm,
             sha256 := cfg.shaOf (artifactPath cfg pm), builtAt := builtAt,
             metaSource := pm.metaPath } := by
  have hng : ∀ s, ¬ (s ∈ stages ∧ ¬ stageOk s = true) :=
    fun s h => h.2 (hst s h.1)
  unfold buildPackage
  rw [if_neg (hng "fetch")]
  dsimp only
  rw [if_neg (hng "extract"), if_neg (hng "patch"), if_neg (hng "build"),
    if_neg (hng "check"), if_neg (hng "install"), if_pos hpkg,
    if_neg (not_not_intro (hst "package" hpkg))]
  refine ⟨rfl, setAdd_mem_self _ _, alGet_alSet_self _ _ _⟩

/-- Witness for C6: the amended theorem instantiated at the `hello-1.0`
build world, hypotheses discharged by computation. -/
theorem c6_build_artifact_and_record_witness :
    (∀ s ∈ defaultStages, (fun _ => true : String → Bool) s = true) ∧
    "package" ∈ defaultStages ∧
    ((buildPackage c6Cfg c6Meta defaultStages (fun _ => true)
        "2026-01-01 00:00:00" ⟨[], [], []⟩).1 =
      Except.ok (artifactPath c6Cfg c6Meta) ∧
    artifactPath c6Cfg c6Meta ∈
      (buildPackage c6Cfg c6Meta defaultStages (fun _ => true)
        "2026-01-01 00:00:00" ⟨[], [], []⟩).2.artifacts ∧
    alGet (buildPackage c6Cfg c6Meta defaultStages (fun _ => true)
        "2026-01-01 00:00:00" ⟨[], [], []⟩).2.pkgDb c6Meta.name =
      some { name := c6Meta.name, version := c6Meta.version,
             artifact := artifactPath c6Cfg c6Meta,
             sha256 := c6Cfg.shaOf (artifactPath c6Cfg c6Meta),
             builtAt := "2026-01-01 00:00:00",
             metaSource := c6Meta.metaPath }) :=
  ⟨by decide, by decide,
   c6_build_artifact_and_record c6Cfg c6Meta defaultStages (fun _ => true)
     "2026-01-01 00:00:00" ⟨[], [], []⟩ (by decide) (by decide)⟩

/-! ## Claim C8 -/

/-- A representative parent environment without `DESTDIR`. -/
def c8Environ : List (String × String) :=
  [("PATH", "/usr/local/sbin:/usr/local/bin:/usr/sbin:/usr/bin:/sbin:/bin"),
   ("HOME", "/root")]

/-- C8: `run_in_sandbox(name, cmd)` executes the command with the parent
environment passed through unchanged: no `DESTDIR` variable pointing at
the sandbox `install/` directory is injected and `PATH` is not reduced to
a minimal path (contrary to the claim and to the `cwd/env/phase` keyword
call sites in `build.py`).  Output capture to the per-sandbox log file is
the one claim clause the code implements. -/
theorem c8_run_env_no_destdir :
    runInSandboxEnv c8Environ = c8Environ ∧
    alGet (runInSandboxEnv c8Environ) "DESTDIR" = none ∧
    alGet (runInSandboxEnv c8Environ) "PATH" =
      some "/usr/local/sbin:/usr/local/bin:/usr/sbin:/usr/bin:/sbin:/bin" ∧
    sandboxLogPath "/var/lib/ibuild/sandbox" "hello-1.0" =
      "/var/lib/ibuild/sandbox/logs/hello-1.0.log" := by
  refine ⟨rfl, rfl, rfl, rfl⟩

/-! ## Claim C7 -/

/-- A recipe whose `source` is a single URL string. -/
def c7Meta : MetaDict :=
  [("name", MVal.vStr "hello"), ("version", MVal.vStr "1.0"),
   ("source", MVal.vStr "http://example.com/hello-1.0.tar.gz")]

/-- C7 counterexample: `validate_meta` rejects two source shapes the claim
says are accepted — a single URL string, and a VCS record without `url`
(`{vcs_url, ref}`). -/
theorem c7_counterexample_source_shapes :
    validateMeta c7Meta =
      Except.error "MetaError:source-must-be-dict-or-list" ∧
    validateMeta (alSet c7Meta "source"
        (MVal.vDict [("vcs_url", MVal.vStr "git://example.com/hello.git"),
                     ("ref", MVal.vStr "v1.0")])) =
      Except.error "MetaError:source.url-required" := by
  refine ⟨rfl, rfl⟩

/-- C7 (amended): `validate_meta` succeeds iff `name`, `version` and
`source` are present and non-null, `version` is a string with non-empty
strip, and `source` is either a dict containing the key `url` or a list
all of whose items are dicts containing `url`.  A URL string or a
url-less VCS record is rejected. -/
theorem c7_validate_characterization (m : MetaDict) :
    (validateMeta m).isOk = true ↔
      (requiredMissing m "name" = false ∧
       requiredMissing m "version" = false ∧
       requiredMissing m "source" = false ∧
       (∃ v : String, alGet m "version" = some (MVal.vStr v) ∧
         ¬ pyTrim v = "") ∧
       ((∃ d, alGet m "source" = some (MVal.vDict d) ∧
           (alGet d "url").isSome = true) ∨
        (∃ l, alGet m "source" = some (MVal.vList l) ∧
           l.all sourceItemOk = true))) := by
  unfold validateMeta
  by_cases h1 : requiredMissing m "name" = true
  · simp [h1, Except.isOk, Except.toBool]
  rw [Bool.not_eq_true] at h1
  rw [h1]
  by_cases h2 : requiredMissing m "version" = true
  · simp [h2, Except.isOk, Except.toBool]
  rw [Bool.not_eq_true] at h2
  rw [h2]
  by_cases h3 : requiredMissing m "source" = true
  · simp [h3, Except.isOk, Except.toBool]
  rw [Bool.not_eq_true] at h3
  rw [h3]
  simp only [if_neg Bool.false_ne_true]
  cases hver : alGet m "version" with
  | none => simp [requiredMissing, hver] at h2
  | some x =>
      cases x with
      | vStr v =>
          simp only [Option.getD_some]
          by_cases htr : pyTrim v = ""
          · simp [htr, Except.isOk, Except.toBool]
          · rw [if_neg htr]
            cases hsrc : alGet m "source" with
            | none => simp [requiredMissing, hsrc] at h3
            | some s =>
                cases s with
                | vStr u =>
                    simp [sourceShapeCheck, htr, Except.isOk, Except.toBool]
                | vInt n =>
                    simp [sourceShapeCheck, htr, Except.isOk, Except.toBool]
                | vNull => simp [requiredMissing, hsrc] at h3
                | vDict d =>
                    by_cases hurl : (alGet d "url").isSome = true
                    · simp [sourceShapeCheck, hurl, htr, Except.isOk,
                        Except.toBool]
                    · simp [sourceShapeCheck, hurl, htr, Except.isOk,
                        Except.toBool]
                | vList l =>
                    by_cases hall : l.all sourceItemOk = true
                    · simp [sourceShapeCheck, hall, htr, Except.isOk,
                        Except.toBool, -List.all_eq_true]
                    · simp [sourceShapeCheck, hall, htr, Except.isOk,
                        Except.toBool, -List.all_eq_true]
      | vList l => simp [Except.isOk, Except.toBool]
      | vDict d => simp [Except.isOk, Except.toBool]
      | vNull => simp [requiredMissing, hver] at h2
      | vInt n => simp [Except.isOk, Except.toBool]

/-! ## Claim C9 -/

/-- `remove_package` on an installed name: the record is deleted, the
manifest (if any) is deleted and its files are unlinked. -/
theorem removePackage_present_eq (name : String) (st : PkgState)
    (im : InstalledMeta) (him : alGet st.metas name = some im) :
    removePackage name true st =
      (true,
       { files := match alGet st.manifests name with
           | some fl => fl.foldl (fun (fs : List String) (f : String) =>
               fs.filter (· ≠ f)) st.files
           | none => st.files,
         manifests := match alGet st.manifests name with
           | some _ => alDel st.manifests name
           | none => st.manifests,
         metas := alDel st.metas name }) := by
  unfold removePackage
  rw [him]
  cases hman : alGet st.manifests name <;> rfl

/-- `install_package` with `upgrade=True` on an installed name, when the
new extraction fails: the result is the raised error together with the
post-removal state plus whatever the partial extraction created. -/
theorem installPackage_upgrade_fail (cfg : PkgConfig) (art : Artifact)
    (destDirArg : Option String) (overwrite : Bool) (st : PkgState)
    (hpresent : art.present = true)
    (hbase : pyEndsWith (pyBasename art.path) ".tar.gz" = true)
    (hmeta : (alGet st.metas (derivedName (pyBasename art.path))).isSome
      = true)
    (hfail : (extractWithManifest art.members
        (pyOr destDirArg (pyOr cfg.installRoot "/usr/local"))).1 = none) :
    installPackage cfg art destDirArg overwrite true st =
      (Except.error "ExtractError",
       { files := (extractWithManifest art.members
             (pyOr destDirArg (pyOr cfg.installRoot "/usr/local"))).2.foldl
             (fun (fs : List String) (p : String) =>
               if p ∈ fs then fs else fs ++ [p])
             ((removePackage (derivedName (pyBasename art.path))
               true st).2.files),
         manifests := (removePackage (derivedName (pyBasename art.path))
           true st).2.manifests,
         metas := (removePackage (derivedName (pyBasename art.path))
           true st).2.metas }) := by
  unfold installPackage
  split
  · rename_i hc
    exact absurd hpresent hc
  dsimp only
  split
  · rename_i hc
    exact absurd hbase hc
  split
  · rename_i hc
    exact absurd rfl hc.2.2
  rw [if_pos ⟨hmeta, rfl⟩, hfail]

/-- The previously installed `hello 0.9` for C9. -/
def c9Old : InstalledMeta :=
  { name := "hello", version := "0.9", artifact := "/cache/hello-0.9.tar.gz",
    sha256 := "old", installRoot := "/usr/local",
    manifest := "/db/hello.manifest.txt" }

/-- Package DB with `hello 0.9` installed and one tracked file. -/
def c9State : PkgState :=
  { files := ["/usr/local/bin/hello"],
    manifests := [("hello", ["/usr/local/bin/hello"])],
    metas := [("hello", c9Old)] }

/-- A `hello-1.0` artifact that re-extracts `bin/hello` and then fails. -/
def c9Artifact : Artifact :=
  { path := "/cache/hello-1.0.tar.gz", present := true, sha256 := "fff",
    members := [⟨"bin/hello", true, true⟩, ⟨"bin/bad", true, false⟩] }

/-- C9 counterexample: upgrading `hello` with an artifact whose extraction
fails *after* re-creating the old path `/usr/local/bin/hello` leaves that
path present on disk — so "the old files remain deleted" does not hold for
old paths the partial extraction re-created (and the error path does not
remove them, since the outer `extracted_files` list is still empty). -/
theorem c9_counterexample_old_path_recreated :
    (installPackage ⟨"/db", none⟩ c9Artifact none false true c9State).1 =
      Except.error "ExtractError" ∧
    "/usr/local/bin/hello" ∈ (alGet c9State.manifests "hello").getD [] ∧
    "/usr/local/bin/hello" ∈
      (installPackage ⟨"/db", none⟩ c9Artifact none false true
        c9State).2.files := by
  refine ⟨rfl, by decide, by decide⟩

/-- C9 (amended): `install_package(upgrade=True)` on an installed name
first runs `remove_package(name, purge=True)`; if the new extraction then
fails, the error propagates without restoring the old package — afterwards
no installed record and no manifest exist for the name, and every old
manifest path *that the partial extraction did not re-create* is gone from
the tracked file set. -/
theorem c9_upgrade_failure_no_restore (cfg : PkgConfig) (art : Artifact)
    (destDirArg : Option String) (overwrite : Bool) (st : PkgState)
    (hpresent : art.present = true)
    (hbase : pyEndsWith (pyBasename art.path) ".tar.gz" = true)
    (hmeta : (alGet st.metas (derivedName (pyBasename art.path))).isSome
      = true)
    (hfail : (extractWithManifest art.members
        (pyOr destDirArg (pyOr cfg.installRoot "/usr/local"))).1 = none) :
    (installPackage cfg art destDirArg overwrite true st).1 =
      Except.error "ExtractError" ∧
    queryPackage (installPackage cfg art destDirArg overwrite true st).2
      (derivedName (pyBasename art.path)) = none ∧
    alGet (installPackage cfg art destDirArg overwrite true st).2.manifests
      (derivedName (pyBasename art.path)) = none ∧
    ∀ p ∈ (alGet st.manifests (derivedName (pyBasename art.path))).getD [],
      p ∉ (extractWithManifest art.members
        (pyOr destDirArg (pyOr cfg.installRoot "/usr/local"))).2 →
      p ∉ (installPackage cfg art destDirArg overwrite true st).2.files := by
  obtain ⟨im, him⟩ := Option.isSome_iff_exists.mp hmeta
  rw [installPackage_upgrade_fail cfg art destDirArg overwrite st hpresent
    hbase hmeta hfail]
  rw [removePackage_present_eq _ _ _ him]
  refine ⟨rfl, ?_, ?_, ?_⟩
  · unfold queryPackage
    dsimp only
    exact alGet_alDel_self _ _
  · dsimp only
    cases hman : alGet st.manifests (derivedName (pyBasename art.path)) with
    | none => exact hman
    | some fl => exact alGet_alDel_self _ _
  · intro p hp hpc
    dsimp only
    cases hman : alGet st.manifests (derivedName (pyBasename art.path)) with
    | none =>
        rw [hman] at hp
        simp at hp
    | some fl =>
        rw [hman] at hp
        simp only [Option.getD_some] at hp
        exact foldl_addset_not_mem p _ hpc _ (foldl_filter_not_mem p fl hp _)

/-- Witness for C9: the amended theorem applied at the concrete failed
`hello` upgrade, hypotheses discharged by evaluation. -/
theorem c9_upgrade_failure_no_restore_witness :
    (c9Artifact.present = true) ∧
    (pyEndsWith (pyBasename c9Artifact.path) ".tar.gz" = true) ∧
    ((alGet c9State.metas
      (derivedName (pyBasename c9Artifact.path))).isSome = true) ∧
    ((extractWithManifest c9Artifact.members
      (pyOr none (pyOr (none : Option String) "/usr/local"))).1 = none) ∧
    ((installPackage ⟨"/db", none⟩ c9Artifact none false true c9State).1 =
      Except.error "ExtractError" ∧
    queryPackage (installPackage ⟨"/db", none⟩ c9Artifact none false true
      c9State).2 (derivedName (pyBasename c9Artifact.path)) = none ∧
    alGet (installPackage ⟨"/db", none⟩ c9Artifact none false true
      c9State).2.manifests (derivedName (pyBasename c9Artifact.path)) =
      none ∧
    ∀ p ∈ (alGet c9State.manifests
        (derivedName (pyBasename c9Artifact.path))).getD [],
      p ∉ (extractWithManifest c9Artifact.members
        (pyOr none (pyOr (none : Option String) "/usr/local"))).2 →
      p ∉ (installPackage ⟨"/db", none⟩ c9Artifact none false true
        c9State).2.files) :=
  ⟨rfl, rfl, rfl, rfl,
   c9_upgrade_failure_no_restore ⟨"/db", none⟩ c9Artifact none false
     c9State rfl rfl rfl rfl⟩

/-! ## Claim C10 -/

/-- The version as the claim words it: the remainder of the base name
after the first `"-"`, with the `".tar.gz"` suffix stripped. -/
def c10ClaimedVersion (base : String) : String :=
  pyReplace (pyDrop base ((derivedName base).length + 1)) ".tar.gz" ""

/-- C10 counterexample: the code computes the version with
`base.replace(f"{name}-", "")`, which removes *every* occurrence of
`"<name>-"`, not just the leading one — on `a-a-1.0.tar.gz` the installed
version is `1.0`, not the claimed remainder `a-1.0`. -/
theorem c10_counterexample_replace_all :
    derivedName "a-a-1.0.tar.gz" = "a" ∧
    c10ClaimedVersion "a-a-1.0.tar.gz" = "a-1.0" ∧
    derivedVersion "a-a-1.0.tar.gz" = "1.0" ∧
    derivedVersion "a-a-1.0.tar.gz" ≠
      c10ClaimedVersion "a-a-1.0.tar.gz" := by
  refine ⟨rfl, rfl, rfl, by decide⟩

/-- C10 (amended): `install_package` derives the identity solely from the
base filename — the name is the substring before the first `"-"` and the
version is the base name with every occurrence of `"<name>-"` removed and
`".tar.gz"` stripped; any successful install records exactly that name and
version, and writes the record and manifest under that (possibly
truncated) name. -/
theorem c10_identity_from_filename (cfg : PkgConfig) (art : Artifact)
    (destDirArg : Option String) (overwrite upgrade : Bool) (st : PkgState)
    (im : InstalledMeta)
    (hok : (installPackage cfg art destDirArg overwrite upgrade st).1 =
      Except.ok im) :
    im.name = derivedName (pyBasename art.path) ∧
    im.version = derivedVersion (pyBasename art.path) ∧
    queryPackage (installPackage cfg art destDirArg overwrite upgrade st).2
      (derivedName (pyBasename art.path)) = some im ∧
    (alGet (installPackage cfg art destDirArg overwrite upgrade
        st).2.manifests
      (derivedName (pyBasename art.path))).isSome = true := by
  revert hok
  unfold installPackage
  split
  · intro hok
    simp at hok
  dsimp only
  split
  · intro hok
    simp at hok
  split
  · intro hok
    simp at hok
  split
  · intro hok
    simp at hok
  · rename_i extracted heq
    intro hok
    dsimp only at hok
    injection hok with h
    subst h
    refine ⟨rfl, rfl, ?_, ?_⟩
    · unfold queryPackage
      dsimp only
      exact alGet_alSet_self _ _ _
    · dsimp only
      rw [alGet_alSet_self]
      rfl

/-- The `linux-headers-5.10` artifact of C10. -/
def c10Artifact : Artifact :=
  { path := "/cache/linux-headers-5.10.tar.gz", present := true,
    sha256 := "abc", members := [⟨"include/hdr.h", true, true⟩] }

/-- The record the C10 install writes: name `linux` (truncated at the
first dash), version `headers-5.10`. -/
def c10Im : InstalledMeta :=
  { name := "linux", version := "headers-5.10",
    artifact := "/cache/linux-headers-5.10.tar.gz", sha256 := "abc",
    installRoot := "/usr/local", manifest := "/db/linux.manifest.txt" }

/-- Witness for C10: the amended theorem applied at the
`linux-headers-5.10.tar.gz` install, the success hypothesis discharged by
evaluation. -/
theorem c10_identity_from_filename_witness :
    ((installPackage ⟨"/db", none⟩ c10Artifact none false false
        ⟨[], [], []⟩).1 = Except.ok c10Im) ∧
    (c10Im.name = derivedName (pyBasename c10Artifact.path) ∧
    c10Im.version = derivedVersion (pyBasename c10Artifact.path) ∧
    queryPackage (installPackage ⟨"/db", none⟩ c10Artifact none false false
        ⟨[], [], []⟩).2 (derivedName (pyBasename c10Artifact.path)) =
      some c10Im ∧
    (alGet (installPackage ⟨"/db", none⟩ c10Artifact none false false
        (⟨[], [], []⟩ : PkgState)).2.manifests
      (derivedName (pyBasename c10Artifact.path))).isSome = true) :=
  ⟨rfl, c10_identity_from_filename ⟨"/db", none⟩ c10Artifact none false
    false ⟨[], [], []⟩ c10Im rfl⟩

/-! ## Claim C4 -/

/-- A left fold that appends per-element output equals the flattened map. -/
theorem foldl_append_eq_join {α β : Type} (f : α → List β) :
    ∀ (l : List α) (init : List β),
      l.foldl (fun acc x => acc ++ f x) init = init ++ (l.map f).flatten := by
  intro l
  induction l with
  | nil =>
      intro init
      simp
  | cons x t ih =>
      intro init
      simp [ih, List.append_assoc]

/-- The dependency part of `candIssues` as a guarded-append fold. -/
theorem dep_fold_as_append (pm : List (String × List PackageCandidate))
    (cand : PackageCandidate) (allowOptional : Bool) (ds : List String)
    (init : List String) :
    ds.foldl
      (fun acc d =>
        let pr := reqFromString d
        if verifySat pm pr then acc
        else if pr.name ∈ cand.optional ∧ allowOptional then acc
        else acc ++ ["unsatisfied:" ++ cand.name ++ "->" ++ reqLabel pr])
      init =
    ds.foldl
      (fun acc d =>
        acc ++
          (let pr := reqFromString d
           if verifySat pm pr then []
           else if pr.name ∈ cand.optional ∧ allowOptional then []
           else ["unsatisfied:" ++ cand.name ++ "->" ++ reqLabel pr]))
      init := by
  apply List.foldl_ext
  intro acc d _
  dsimp only
  by_cases h1 : verifySat pm (reqFromString d) = true
  · rw [if_pos h1, if_pos h1, List.append_nil]
  · rw [if_neg h1, if_neg h1]
    by_cases h2 : (reqFromString d).name ∈ cand.optional ∧ allowOptional
    · rw [if_pos h2, if_pos h2, List.append_nil]
    · rw [if_neg h2, if_neg h2]

/-- `candIssues` is empty exactly when every depend is satisfied (or
excused as optional) and no conflict entry matches a chosen pair. -/
theorem candIssues_nil_iff (pm : List (String × List PackageCandidate))
    (chosenMap : Chosen) (allowOptional : Bool) (cand : PackageCandidate) :
    candIssues pm chosenMap allowOptional cand = [] ↔
      (∀ d ∈ cand.depends,
        verifySat pm (reqFromString d) = true ∨
        ((reqFromString d).name ∈ cand.optional ∧ allowOptional = true)) ∧
      (∀ c ∈ cand.conflicts, ∀ oc ∈ chosenMap,
        ¬ (oc.1 = c ∨ c ∈ oc.2.provides)) := by
  unfold candIssues
  rw [dep_fold_as_append, foldl_append_eq_join, foldl_append_eq_join]
  simp only [List.nil_append, List.append_eq_nil, List.flatten_eq_nil_iff,
    List.mem_map, forall_exists_index, and_imp, forall_apply_eq_imp_iff₂]
  constructor
  · intro ⟨hd, hc⟩
    constructor
    · intro d hdm
      have := hd d hdm
      by_cases h1 : verifySat pm (reqFromString d) = true
      · exact Or.inl h1
      · by_cases h2 : (reqFromString d).name ∈ cand.optional ∧ allowOptional
        · exact Or.inr h2
        · rw [if_neg h1, if_neg h2] at this
          exact absurd this (by simp)
    · intro c hcm oc hoc
      have := hc c hcm
      rw [List.filterMap_eq_nil_iff] at this
      have h := this oc hoc
      intro hbad
      rw [if_pos hbad] at h
      exact absurd h (by simp)
  · intro ⟨hd, hc⟩
    constructor
    · intro d hdm
      by_cases h1 : verifySat pm (reqFromString d) = true
      · rw [if_pos h1]
      · rw [if_neg h1]
        rcases hd d hdm with hv | h2
        · exact absurd hv h1
        · rw [if_pos h2]
    · intro c hcm
      rw [List.filterMap_eq_nil_iff]
      intro oc hoc
      rw [if_neg (hc c hcm oc hoc)]

/-- The satisfaction scan of `_verify_selection`, spelled out: some
provides-map entry whose key equals the requirement name or contains it as
a substring holds a candidate satisfying the requirement. -/
theorem verifySat_iff (pm : List (String × List PackageCandidate))
    (pr : PackageRequirement) :
    verifySat pm pr = true ↔
      ∃ e ∈ pm, (e.1 = pr.name ∨ strSub pr.name e.1 = true) ∧
        ∃ c ∈ e.2, c.satisfies pr = true := by
  simp [verifySat, List.any_eq_true, Bool.and_eq_true, Bool.or_eq_true,
    decide_eq_true_eq]

/-- A candidate that provides a name only through its raw `meta` dict
(`meta.get("provides")`): it `satisfies` a requirement on that name, but
the provides map of `_verify_selection` never lists it under that name. -/
def c4V : PackageCandidate :=
  { name := "virtlib", version := some "1", provides := [],
    depends := ["virt"], conflicts := [], optional := [],
    metaProvides := ["virt"] }

/-- C4 counterexample: with `{"virtlib": c4V}` chosen, verification
returns `ok=true`, yet no chosen candidate matches the depend `virt` by
name or by its `provides` list — the scan only found it because the key
`virtlib` *contains* the substring `virt` and `satisfies` consults the raw
meta provides.  The claim's satisfaction notion (match by name or
provides) does not hold, refuting the iff. -/
theorem c4_counterexample_substring_key :
    (verifySelection [("virtlib", c4V)] true).1 = true ∧
    c4V.depends = ["virt"] ∧
    "virt" ∉ c4V.optional ∧
    ∀ nc ∈ ([("virtlib", c4V)] : Chosen),
      ¬ ((reqFromString "virt").name = nc.2.name ∨
        (reqFromString "virt").name ∈ nc.2.provides) := by
  refine ⟨rfl, rfl, by decide, by decide⟩

/-- C4 (amended): `_verify_selection` returns `ok=true` iff every depend
of every chosen candidate is either *discoverably* satisfied — some
provides-map entry (keyed by each chosen candidate's `provides` plus its
name) whose key equals or contains the requirement name as a substring
holds a candidate whose `satisfies` (name, `provides`, or raw meta
provides, plus version specifier) accepts it — or excused as optional,
and no conflict entry of a chosen candidate matches a chosen pair by name
or provides; `ok` is exactly the emptiness of the enumerated
`unsatisfied:`/`conflict:` issues. -/
theorem c4_verify_selection_iff (chosenMap : Chosen)
    (allowOptional : Bool) :
    (verifySelection chosenMap allowOptional).1 = true ↔
      (∀ nc ∈ chosenMap, ∀ d ∈ nc.2.depends,
        (∃ e ∈ verifyProvidesMap chosenMap,
          (e.1 = (reqFromString d).name ∨
            strSub (reqFromString d).name e.1 = true) ∧
          ∃ c ∈ e.2, c.satisfies (reqFromString d) = true) ∨
        ((reqFromString d).name ∈ nc.2.optional ∧ allowOptional = true)) ∧
      (∀ nc ∈ chosenMap, ∀ c ∈ nc.2.conflicts, ∀ oc ∈ chosenMap,
        ¬ (oc.1 = c ∨ c ∈ oc.2.provides)) := by
  have hmain : (verifySelection chosenMap allowOptional).1 = true ↔
      ∀ nc ∈ chosenMap,
        candIssues (verifyProvidesMap chosenMap) chosenMap allowOptional
          nc.2 = [] := by
    unfold verifySelection
    dsimp only
    rw [foldl_append_eq_join (fun (nc : String × PackageCandidate) =>
      candIssues (verifyProvidesMap chosenMap) chosenMap allowOptional
        nc.2)]
    simp only [List.nil_append, List.isEmpty_iff, List.flatten_eq_nil_iff,
      List.mem_map]
    constructor
    · intro h nc hnc
      exact h _ ⟨nc, hnc, rfl⟩
    · rintro h l ⟨nc, hnc, rfl⟩
      exact h nc hnc
  rw [hmain]
  constructor
  · intro h
    refine ⟨?_, ?_⟩
    · intro nc hnc d hd
      rcases ((candIssues_nil_iff _ _ _ _).mp (h nc hnc)).1 d hd with
        h1 | h2
      · exact Or.inl ((verifySat_iff _ _).mp h1)
      · exact Or.inr h2
    · intro nc hnc
      exact ((candIssues_nil_iff _ _ _ _).mp (h nc hnc)).2
  · intro hb nc hnc
    refine (candIssues_nil_iff _ _ _ _).mpr ⟨?_, hb.2 nc hnc⟩
    intro d hdm
    rcases hb.1 nc hnc d hdm with h1 | h2
    · exact Or.inl ((verifySat_iff _ _).mpr h1)
    · exact Or.inr h2

/-! ## Claim C2: precedence of the Kahn order -/

theorem alGet_alUpd_ne {β : Type} (l : List (String × β)) (k k' : String)
    (f : β → β) (dflt : β) (hne : k' ≠ k) :
    alGet (alUpd l k f dflt) k' = alGet l k' := by
  induction l with
  | nil =>
      rw [show alUpd ([] : List (String × β)) k f dflt = [(k, f dflt)]
        from rfl, alGet_cons_ne _ _ _ _ (fun h => hne h.symm)]
  | cons h t ih =>
      obtain ⟨k0, v0⟩ := h
      by_cases hk : k0 = k
      · rw [show alUpd ((k0, v0) :: t) k f dflt = (k0, f v0) :: t from by
          simp [alUpd, hk]]
        have h0 : k0 ≠ k' := fun h => hne (h.symm.trans hk)
        rw [alGet_cons_ne _ _ _ _ h0, alGet_cons_ne _ _ _ _ h0]
      · rw [show alUpd ((k0, v0) :: t) k f dflt =
            (k0, v0) :: alUpd t k f dflt from by simp [alUpd, hk]]
        by_cases h0 : k0 = k'
        · subst h0
          rw [alGet_cons_self, alGet_cons_self]
        · rw [alGet_cons_ne _ _ _ _ h0, alGet_cons_ne _ _ _ _ h0]
          exact ih

theorem alGet_of_mem_nodup {β : Type} (l : List (String × β))
    (hnd : (l.map (·.1)).Nodup) (p : String × β) (hp : p ∈ l) :
    alGet l p.1 = some p.2 := by
  induction l with
  | nil => simp at hp
  | cons h t ih =>
      obtain ⟨k0, v0⟩ := h
      simp only [List.map, List.nodup_cons] at hnd
      rcases List.mem_cons.mp hp with h1 | h1
      · subst h1
        exact alGet_cons_self _ _ _
      · have hne : k0 ≠ p.1 := by
          intro he
          exact hnd.1 (he ▸ List.mem_map.mpr ⟨p, h1, rfl⟩)
        rw [alGet_cons_ne _ _ _ _ hne]
        exact ih hnd.2 h1

theorem alUpd_keys_of_mem {β : Type} (l : List (String × β)) (k : String)
    (f : β → β) (dflt : β) (hk : k ∈ l.map (·.1)) :
    (alUpd l k f dflt).map (·.1) = l.map (·.1) := by
  induction l with
  | nil => simp at hk
  | cons h t ih =>
      obtain ⟨k0, v0⟩ := h
      by_cases he : k0 = k
      · simp [alUpd, if_pos he, he]
      · simp only [List.map, List.mem_cons] at hk
        rcases hk with h1 | h1
        · exact absurd h1.symm he
        · simp [alUpd, if_neg he, ih h1]

/-- A list whose erasure of `n` is empty contained only `n`. -/
theorem mem_of_erase_nil (l : List String) (n : String)
    (h : l.erase n = []) : ∀ x ∈ l, x = n := by
  cases l with
  | nil => intro x hx; simp at hx
  | cons a t =>
      by_cases ha : a = n
      · subst ha
        rw [List.erase_cons_head] at h
        subst h
        intro x hx
        simpa using hx
      · rw [List.erase_cons_tail] at h
        · exact absurd h (by simp)
        · simp [ha]

/-- `kahnStep` erases the popped node from every dependency set. -/
theorem kahnStep_deps_eq (n : String) :
    ∀ (deps : List (String × List String)) (indeg : List (String × Int)),
      (kahnStep n deps indeg).1 =
        deps.map (fun p => (p.1, if n ∈ p.2 then p.2.erase n else p.2)) := by
  intro deps
  induction deps with
  | nil => intro indeg; simp [kahnStep]
  | cons h t ih =>
      intro indeg
      obtain ⟨m, ds⟩ := h
      by_cases hn : n ∈ ds <;> simp [kahnStep, hn, ih]

/-- `kahnStep` leaves the in-degree of keys outside the map untouched. -/
theorem kahnStep_indeg_other (n : String) :
    ∀ (deps : List (String × List String)) (indeg : List (String × Int))
      (x : String), x ∉ deps.map (·.1) →
      alGet (kahnStep n deps indeg).2.1 x = alGet indeg x := by
  intro deps
  induction deps with
  | nil => intro indeg x _; rfl
  | cons h t ih =>
      intro indeg x hx
      obtain ⟨m, ds⟩ := h
      simp only [List.map, List.mem_cons, not_or] at hx
      by_cases hn : n ∈ ds
      · simp only [kahnStep, if_pos hn]
        rw [ih _ x (by simpa using hx.2)]
        exact alGet_alUpd_ne _ _ _ _ _ hx.1
      · simp only [kahnStep, if_neg hn]
        exact ih _ x (by simpa using hx.2)

/-- `kahnStep` keeps in-degrees equal to remaining dependency-set sizes. -/
theorem kahnStep_sync (n : String) :
    ∀ (deps : List (String × List String)) (indeg : List (String × Int)),
      ((deps.map (·.1)).Nodup) →
      (∀ p ∈ deps, (alGet indeg p.1).getD 0 = (p.2.length : Int)) →
      ∀ p ∈ (kahnStep n deps indeg).1,
        (alGet (kahnStep n deps indeg).2.1 p.1).getD 0 =
          (p.2.length : Int) := by
  intro deps
  induction deps with
  | nil => intro indeg _ _ p hp; simp [kahnStep] at hp
  | cons h t ih =>
      intro indeg hnd hsync p hp
      obtain ⟨m, ds⟩ := h
      simp only [List.map, List.nodup_cons] at hnd
      have hmt : m ∉ t.map (·.1) := hnd.1
      by_cases hn : n ∈ ds
      · simp only [kahnStep, if_pos hn] at hp ⊢
        rcases List.mem_cons.mp hp with h1 | h1
        · subst h1
          rw [kahnStep_indeg_other n t _ m hmt,
            alGet_alUpd_self, Option.getD_some]
          have hlen := hsync (m, ds) (by simp)
          simp only at hlen
          rw [hlen, List.length_erase_of_mem hn]
          have hpos := List.length_pos_of_mem hn
          omega
        · exact ih _ hnd.2
            (fun q hq => by
              rw [alGet_alUpd_ne _ _ _ _ _
                (fun he => hmt (by
                  rw [← he]; exact List.mem_map.mpr ⟨q, hq, rfl⟩))]
              exact hsync q (by simp [hq]))
            p h1
      · simp only [kahnStep, if_neg hn] at hp ⊢
        rcases List.mem_cons.mp hp with h1 | h1
        · subst h1
          rw [kahnStep_indeg_other n t _ m hmt]
          exact hsync (m, ds) (by simp)
        · exact ih _ hnd.2 (fun q hq => hsync q (by simp [hq])) p h1

/-- Every node `kahnStep` enqueues had the popped node as its last
remaining dependency. -/
theorem kahnStep_enq (n : String) :
    ∀ (deps : List (String × List String)) (indeg : List (String × Int)),
      ((deps.map (·.1)).Nodup) →
      (∀ p ∈ deps, (alGet indeg p.1).getD 0 = (p.2.length : Int)) →
      ∀ m ∈ (kahnStep n deps indeg).2.2,
        ∃ dset, (m, dset) ∈ deps ∧ n ∈ dset ∧ dset.erase n = [] := by
  intro deps
  induction deps with
  | nil => intro indeg _ _ m hm; simp [kahnStep] at hm
  | cons h t ih =>
      intro indeg hnd hsync m hm
      obtain ⟨m0, ds⟩ := h
      simp only [List.map, List.nodup_cons] at hnd
      have hmt : m0 ∉ t.map (·.1) := hnd.1
      by_cases hn : n ∈ ds
      · simp only [kahnStep, if_pos hn] at hm
        have htail : ∀ q ∈ t, (alGet (alUpd indeg m0 (fun v => v - 1)
            0) q.1).getD 0 = (q.2.length : Int) := fun q hq => by
          rw [alGet_alUpd_ne _ _ _ _ _
            (fun he => hmt (by
              rw [← he]; exact List.mem_map.mpr ⟨q, hq, rfl⟩))]
          exact hsync q (by simp [hq])
        by_cases hz : (alGet (alUpd indeg m0 (fun v => v - 1) 0)
            m0).getD 0 = 0
        · rw [if_pos hz] at hm
          rcases List.mem_cons.mp hm with h1 | h1
          · refine ⟨ds, by simp [h1], hn, ?_⟩
            rw [alGet_alUpd_self, Option.getD_some] at hz
            have hlen := hsync (m0, ds) (by simp)
            simp only at hlen
            rw [hlen] at hz
            have : (ds.erase n).length = 0 := by
              rw [List.length_erase_of_mem hn]
              omega
            exact List.length_eq_zero.mp this
          · obtain ⟨dset, hd1, hd2, hd3⟩ := ih _ hnd.2 htail m h1
            exact ⟨dset, by simp [hd1], hd2, hd3⟩
        · rw [if_neg hz] at hm
          obtain ⟨dset, hd1, hd2, hd3⟩ := ih _ hnd.2 htail m hm
          exact ⟨dset, by simp [hd1], hd2, hd3⟩
      · simp only [kahnStep, if_neg hn] at hm
        obtain ⟨dset, hd1, hd2, hd3⟩ := ih _ hnd.2
          (fun q hq => hsync q (by simp [hq])) m hm
        exact ⟨dset, by simp [hd1], hd2, hd3⟩

/-- Splitting a snoc list around a distinguished element. -/
theorem snoc_split (xs : List String) (y : String) (l₁ : List String)
    (a : String) (l₂ : List String) (h : xs ++ [y] = l₁ ++ a :: l₂) :
    (l₁ = xs ∧ a = y ∧ l₂ = []) ∨
    ∃ l₂', xs = l₁ ++ a :: l₂' ∧ l₂ = l₂' ++ [y] := by
  rcases List.append_eq_append_iff.mp h with ⟨a', h1, h2⟩ | ⟨c', h1, h2⟩
  · cases a' with
    | nil =>
        left
        simp only [List.append_nil] at h1
        simp only [List.nil_append] at h2
        injection h2 with hy hl
        exact ⟨h1, hy.symm, hl.symm⟩
    | cons b bt =>
        exfalso
        have := congrArg List.length h2
        simp at this
  · cases c' with
    | nil =>
        left
        simp only [List.append_nil] at h1
        simp only [List.nil_append] at h2
        injection h2 with hy hl
        exact ⟨h1.symm, hy, hl⟩
    | cons b bt =>
        right
        simp only [List.cons_append] at h2
        injection h2 with hy hl
        refine ⟨bt, ?_, hl⟩
        rw [hy]
        exact h1

/-- Invariant-carrying precedence lemma for the Kahn loop: any node's
original dependencies appear before its first occurrence in the emitted
order. -/
theorem kahnLoop_prec (origdep : String → List String) :
    ∀ (N : Nat) (q order : List String)
      (deps : List (String × List String)) (indeg : List (String × Int))
      (hk : ∀ m ∈ deps.map (·.1), m ∈ indeg.map (·.1)),
      q.length + posSum indeg ≤ N →
      ((deps.map (·.1)).Nodup) →
      (∀ p ∈ deps, (alGet indeg p.1).getD 0 = (p.2.length : Int)) →
      (∀ p ∈ deps, ∀ x ∈ origdep p.1, x ∈ p.2 ∨ x ∈ order) →
      (∀ m ∈ q, ∀ x ∈ origdep m, x ∈ order) →
      (∀ l₁ a l₂, order = l₁ ++ a :: l₂ → a ∉ l₁ →
        ∀ x ∈ origdep a, x ∈ l₁) →
      ∀ l₁ a l₂, kahnLoop q order deps indeg hk = l₁ ++ a :: l₂ →
        a ∉ l₁ → ∀ x ∈ origdep a, x ∈ l₁ := by
  intro N
  induction N with
  | zero =>
      intro q order deps indeg hk hN knd sync invd qok prec l₁ a l₂ hres
        hnotin x hx
      match q with
      | [] =>
          rw [kahnLoop] at hres
          exact prec l₁ a l₂ hres hnotin x hx
      | n :: qt =>
          exfalso
          simp only [List.length_cons] at hN
          omega
  | succ N ih =>
      intro q order deps indeg hk hN knd sync invd qok prec l₁ a l₂ hres
        hnotin x hx
      match q with
      | [] =>
          rw [kahnLoop] at hres
          exact prec l₁ a l₂ hres hnotin x hx
      | n :: qt =>
          rw [kahnLoop] at hres
          have hmes := kahnStep_measure n deps indeg hk
          have hN' : (qt ++ (kahnStep n deps indeg).2.2).length +
              posSum (kahnStep n deps indeg).2.1 ≤ N := by
            simp only [List.length_append, List.length_cons] at hN ⊢
            omega
          have knd' : (((kahnStep n deps indeg).1.map (·.1)).Nodup) := by
            rw [kahnStep_deps_keys]
            exact knd
          have sync' := kahnStep_sync n deps indeg knd sync
          have invd' : ∀ p ∈ (kahnStep n deps indeg).1,
              ∀ x ∈ origdep p.1, x ∈ p.2 ∨ x ∈ order ++ [n] := by
            intro p hp z hz
            rw [kahnStep_deps_eq] at hp
            obtain ⟨p0, hp0, rfl⟩ := List.mem_map.mp hp
            rcases invd p0 hp0 z hz with h1 | h1
            · by_cases hzn : z = n
              · right
                rw [hzn]
                exact List.mem_append_right _ (List.mem_singleton_self n)
              · left
                dsimp only
                by_cases hnp : n ∈ p0.2
                · rw [if_pos hnp]
                  exact (List.mem_erase_of_ne hzn).mpr h1
                · rw [if_neg hnp]
                  exact h1
            · right
              exact List.mem_append_left _ h1
          have qok' : ∀ m ∈ qt ++ (kahnStep n deps indeg).2.2,
              ∀ x ∈ origdep m, x ∈ order ++ [n] := by
            intro m hm z hz
            rcases List.mem_append.mp hm with h1 | h1
            · exact List.mem_append_left _ (qok m (by simp [h1]) z hz)
            · obtain ⟨dset, hd1, hd2, hd3⟩ :=
                kahnStep_enq n deps indeg knd sync m h1
              rcases invd (m, dset) hd1 z hz with h2 | h2
              · rw [mem_of_erase_nil dset n hd3 z h2]
                exact List.mem_append_right _ (List.mem_singleton_self n)
              · exact List.mem_append_left _ h2
          have prec' : ∀ l₁ a l₂, order ++ [n] = l₁ ++ a :: l₂ →
              a ∉ l₁ → ∀ x ∈ origdep a, x ∈ l₁ := by
            intro l₁' a' l₂' hsp hni z hz
            rcases snoc_split order n l₁' a' l₂' hsp with
              ⟨he1, he2, _⟩ | ⟨l₂'', he1, _⟩
            · rw [he1]
              rw [he2] at hz
              exact qok n (by simp) z hz
            · exact prec l₁' a' l₂'' he1 hni z hz
          exact ih _ _ _ _ _ hN' knd' sync' invd' qok' prec' l₁ a l₂ hres
            hnotin x hx

theorem mem_keys_alSet {β : Type} (l : List (String × β)) (k : String)
    (v : β) (x : String) (hx : x ∈ (alSet l k v).map (·.1)) :
    x ∈ l.map (·.1) ∨ x = k := by
  induction l with
  | nil =>
      simp only [alSet, List.map, List.mem_cons] at hx
      rcases hx with h | h
      · exact Or.inr h
      · simp at h
  | cons hd t ih =>
      obtain ⟨k0, v0⟩ := hd
      by_cases he : k0 = k
      · rw [show alSet ((k0, v0) :: t) k v = (k, v) :: t from by
          simp [alSet, he]] at hx
        simp only [List.map, List.mem_cons] at hx ⊢
        rcases hx with h | h
        · exact Or.inr h
        · exact Or.inl (Or.inr h)
      · rw [show alSet ((k0, v0) :: t) k v = (k0, v0) :: alSet t k v from by
          simp [alSet, he]] at hx
        simp only [List.map, List.mem_cons] at hx ⊢
        rcases hx with h | h
        · exact Or.inl (Or.inl h)
        · rcases ih h with h2 | h2
          · exact Or.inl (Or.inr h2)
          · exact Or.inr h2

theorem alSet_keys_nodup {β : Type} (l : List (String × β)) (k : String)
    (v : β) (h : (l.map (·.1)).Nodup) :
    (((alSet l k v).map (·.1)).Nodup) := by
  induction l with
  | nil => simp [alSet]
  | cons hd t ih =>
      obtain ⟨k0, v0⟩ := hd
      simp only [List.map, List.nodup_cons] at h
      by_cases he : k0 = k
      · rw [show alSet ((k0, v0) :: t) k v = (k, v) :: t from by
          simp [alSet, he]]
        simp only [List.map, List.nodup_cons]
        exact ⟨he ▸ h.1, h.2⟩
      · rw [show alSet ((k0, v0) :: t) k v = (k0, v0) :: alSet t k v from by
          simp [alSet, he]]
        simp only [List.map, List.nodup_cons]
        refine ⟨?_, ih h.2⟩
        intro hmem
        rcases mem_keys_alSet t k v k0 hmem with h2 | h2
        · exact h.1 h2
        · exact he h2

theorem topoNodes_keys_nodup (cm : Chosen) :
    (((topoNodes cm).map (·.1)).Nodup) := by
  unfold topoNodes
  suffices h : ∀ (l : Chosen) (acc : List (String × PackageCandidate)),
      ((acc.map (·.1)).Nodup) →
      (((l.foldl (fun ns nc => alSet ns nc.2.cid nc.2) acc).map
        (·.1)).Nodup) from h cm [] (by simp)
  intro l
  induction l with
  | nil => intro acc h; exact h
  | cons x t ih => intro acc h; exact ih _ (alSet_keys_nodup _ _ _ h)

theorem foldl_keys_eq_of_key {α β : Type} (l : List α) (key : String)
    (F : List (String × β) → α → List (String × β))
    (h : ∀ dm a, key ∈ dm.map (·.1) → (F dm a).map (·.1) = dm.map (·.1)) :
    ∀ dm, key ∈ dm.map (·.1) →
      (l.foldl F dm).map (·.1) = dm.map (·.1) := by
  induction l with
  | nil => intro dm _; rfl
  | cons x t ih =>
      intro dm hkey
      rw [List.foldl_cons, ih (F dm x) (by rw [h dm x hkey]; exact hkey),
        h dm x hkey]

theorem foldl_keys_eq_all {α β : Type} (l : List α) (keyOf : α → String)
    (F : List (String × β) → α → List (String × β))
    (h : ∀ dm a, keyOf a ∈ dm.map (·.1) →
      (F dm a).map (·.1) = dm.map (·.1)) :
    ∀ dm, (∀ a ∈ l, keyOf a ∈ dm.map (·.1)) →
      (l.foldl F dm).map (·.1) = dm.map (·.1) := by
  induction l with
  | nil => intro dm _; rfl
  | cons x t ih =>
      intro dm hmem
      have hx := hmem x (by simp)
      have hF := h dm x hx
      rw [List.foldl_cons, ih (F dm x) (fun a ha => by
        rw [hF]; exact hmem a (by simp [ha])), hF]

/-- `topoDeps` keeps exactly the node ids as keys. -/
theorem topoDeps_keys (cm : Chosen)
    (nodes : List (String × PackageCandidate)) :
    (topoDeps cm nodes).map (·.1) = nodes.map (·.1) := by
  unfold topoDeps
  have hinit : ((nodes.map (fun nd => (nd.1, ([] : List String)))).map
      (·.1)) = nodes.map (·.1) := by
    simp [List.map_map, Function.comp]
  have h := foldl_keys_eq_all nodes (·.1)
    (fun dm nd =>
      nd.2.depends.foldl
        (fun dm d =>
          let pr := reqFromString d
          match cm.find? (fun nc => nc.2.satisfies pr) with
          | none => dm
          | some nc =>
              let pid := nc.2.cid
              if pid ≠ "" ∧ (alGet nodes pid).isSome then
                alUpd dm nd.1 (fun s => setAdd s pid) []
              else dm)
        dm)
    (fun dm nd hkey => by
      apply foldl_keys_eq_of_key _ nd.1
      · intro dm' d hkey'
        dsimp only
        cases cm.find? (fun nc => nc.2.satisfies (reqFromString d)) with
        | none => rfl
        | some nc =>
            dsimp only
            by_cases hc : nc.2.cid ≠ "" ∧ (alGet nodes nc.2.cid).isSome
            · rw [if_pos hc]
              exact alUpd_keys_of_mem _ _ _ _ hkey'
            · rw [if_neg hc]
      · exact hkey)
    (nodes.map (fun nd => (nd.1, ([] : List String))))
    (fun a ha => by rw [hinit]; exact List.mem_map.mpr ⟨a, ha, rfl⟩)
  rw [h, hinit]

theorem topoDeps_keys_nodup (cm : Chosen) :
    (((topoDeps cm (topoNodes cm)).map (·.1)).Nodup) := by
  rw [topoDeps_keys]
  exact topoNodes_keys_nodup cm

/-- With unique keys, the initial in-degree of an entry is its
dependency-set size. -/
theorem alGet_topoIndeg (dm : List (String × List String))
    (hnd : (dm.map (·.1)).Nodup) (p : String × List String) (hp : p ∈ dm) :
    alGet (topoIndeg dm) p.1 = some (p.2.length : Int) := by
  have hm : (p.1, (p.2.length : Int)) ∈ topoIndeg dm :=
    List.mem_map.mpr ⟨p, hp, rfl⟩
  have hnd' : ((topoIndeg dm).map (·.1)).Nodup := by
    rw [topoIndeg_keys]
    exact hnd
  exact alGet_of_mem_nodup _ hnd' (p.1, (p.2.length : Int)) hm

/-- Nodes queued initially have an empty dependency set. -/
theorem topoQ0_dset_nil (dm : List (String × List String))
    (hnd : (dm.map (·.1)).Nodup) (m : String)
    (hm : m ∈ topoQ0 (topoIndeg dm)) :
    (alGet dm m).getD [] = [] := by
  unfold topoQ0 at hm
  obtain ⟨e, he, rfl⟩ := List.mem_map.mp hm
  have hef := List.mem_filter.mp he
  obtain ⟨p, hp, rfl⟩ := List.mem_map.mp hef.1
  have h0 : (p.2.length : Int) = 0 := by
    have h := hef.2
    simp only [decide_eq_true_eq] at h
    exact h
  have hplen : p.2 = [] := by
    have hl : p.2.length = 0 := by exact_mod_cast h0
    exact List.length_eq_zero.mp hl
  dsimp only
  rw [alGet_of_mem_nodup dm hnd p hp, Option.getD_some, hplen]

/-- The queue part of the topological order (before the cyclic-leftover
append). -/
def kahnOrder (chosenMap : Chosen) : List String :=
  kahnLoop (topoQ0 (topoIndeg (topoDeps chosenMap (topoNodes chosenMap))))
    [] (topoDeps chosenMap (topoNodes chosenMap))
    (topoIndeg (topoDeps chosenMap (topoNodes chosenMap)))
    (by
      intro m hm
      rw [topoIndeg_keys]
      exact hm)

theorem topologicalOrder_eq (cm : Chosen) :
    topologicalOrder cm = kahnFinish (topoNodes cm) (kahnOrder cm) := rfl

/-- C2 (amended): in a run of `_topological_order` in which Kahn's queue
emits every node (no cycle leftover), every recorded provider edge is
respected — the provider `b` of a node `a` appears before the first
occurrence of `a` in the returned order.  (With a cycle, the leftover
nodes are appended in sorted id order and need not respect edges.) -/
theorem c2_order_precedence (chosenMap : Chosen) (a b : String)
    (hedge : b ∈
      (alGet (topoDeps chosenMap (topoNodes chosenMap)) a).getD [])
    (hfull : (kahnOrder chosenMap).length = (topoNodes chosenMap).length) :
    ∀ l₁ l₂, topologicalOrder chosenMap = l₁ ++ a :: l₂ → a ∉ l₁ →
      b ∈ l₁ := by
  intro l₁ l₂ hsplit hnot
  rw [topologicalOrder_eq] at hsplit
  rw [show kahnFinish (topoNodes chosenMap) (kahnOrder chosenMap) =
      kahnOrder chosenMap from by
    unfold kahnFinish
    rw [if_neg (not_not_intro hfull)]] at hsplit
  unfold kahnOrder at hsplit
  have hnd := topoDeps_keys_nodup chosenMap
  exact kahnLoop_prec
    (fun m =>
      (alGet (topoDeps chosenMap (topoNodes chosenMap)) m).getD [])
    ((topoQ0 (topoIndeg
      (topoDeps chosenMap (topoNodes chosenMap)))).length +
      posSum (topoIndeg (topoDeps chosenMap (topoNodes chosenMap))))
    _ _ _ _ _ (le_refl _) hnd
    (fun p hp => by
      rw [alGet_topoIndeg _ hnd p hp, Option.getD_some])
    (fun p hp x hx => Or.inl (by
      dsimp only at hx
      rwa [alGet_of_mem_nodup _ hnd p hp, Option.getD_some] at hx))
    (fun m hm x hx => by
      dsimp only at hx
      rw [topoQ0_dset_nil _ hnd m hm] at hx
      exact hx)
    (fun l₁' a' l₂' hsp =>
      (List.cons_ne_nil a' l₂' (List.append_eq_nil.mp hsp.symm).2).elim)
    l₁ a l₂ hsplit hnot b hedge

/-- An acyclic two-package chosen set: `wa` depends on `wb`. -/
def c2WA : PackageCandidate :=
  { name := "wa", version := some "1", provides := [], depends := ["wb"],
    conflicts := [], optional := [], metaProvides := [] }

/-- The dependency-free provider `wb`. -/
def c2WB : PackageCandidate :=
  { name := "wb", version := some "1", provides := [], depends := [],
    conflicts := [], optional := [], metaProvides := [] }

/-- The chosen map of the C2 witness. -/
def c2W : Chosen := [("wa", c2WA), ("wb", c2WB)]

/-- Witness for C2: the amended precedence theorem applied to the acyclic
`wa → wb` chosen set, whose Kahn run is computed by evaluation. -/
theorem c2_order_precedence_witness :
    ("wb-1" ∈ (alGet (topoDeps c2W (topoNodes c2W)) "wa-1").getD []) ∧
    ((kahnOrder c2W).length = (topoNodes c2W).length) ∧
    (∀ l₁ l₂, topologicalOrder c2W = l₁ ++ "wa-1" :: l₂ →
      "wa-1" ∉ l₁ → "wb-1" ∈ l₁) := by
  have hko : kahnOrder c2W = ["wb-1", "wa-1"] :=
    kahnLoopF_eq 3 _ _ _ _ _ _ (by rfl)
  exact ⟨by decide, by rw [hko]; rfl,
    c2_order_precedence c2W "wa-1" "wb-1" (by decide) (by rw [hko]; rfl)⟩

/-! ## Claim C5 -/

/-- A candidate providing `virt` only through its raw meta dict. -/
def c5L : PackageCandidate :=
  { name := "virtlib", version := some "1", provides := [], depends := [],
    conflicts := [], optional := [], metaProvides := ["virt"] }

/-- `a-2`: higher version score, with an unresolvable depend `virt`. -/
def c5X2 : PackageCandidate :=
  { name := "a", version := some "2", provides := [], depends := ["virt"],
    conflicts := [], optional := [], metaProvides := [] }

/-- `a` with no version: what the search actually settles on. -/
def c5X1 : PackageCandidate :=
  { name := "a", version := none, provides := [], depends := [],
    conflicts := [], optional := [], metaProvides := [] }

/-- Resolver context over the three-candidate repository. -/
def c5Ctx : ResolverCtx :=
  { repo := buildIndex [c5L, c5X2, c5X1], maxSteps := 100,
    deadlineHit := fun _ => false, allowOptional := true }

/-- The root requirement set `[virtlib, a]`. -/
def c5Reqs : List PackageRequirement :=
  [{ name := "virtlib", raw := "virtlib", specifier := none },
   { name := "a", raw := "a", specifier := none }]

/-- The lock entry the first resolution writes. -/
def c5Lock : LockData :=
  [("a,virtlib",
    [("virtlib", { name := "virtlib", version := some "1" }),
     ("a", { name := "a", version := none })])]

/-- C5 counterexample: resolving `[virtlib, a]` twice yields different
`(chosen, order)`.  The first (search) resolution picks `a` (no version):
`a-2` is tried first but its depend `virt` has no candidate.  The saved
lock stores `{a: version None}`; on the second resolve `_apply_lock`
re-pins with no version specifier and `find_best` returns the
higher-scored `a-2`, whose depend `virt` now *verifies* against the locked
set (the provides-map key `virtlib` contains `virt` as a substring and
`virtlib` satisfies it via its raw meta provides), so the locked set is
accepted without search with a different chosen map and order. -/
theorem c5_counterexample_lock_drift :
    resolveFull c5Ctx [] c5Reqs true =
      (⟨true, [("virtlib", c5L), ("a", c5X1)], ["virtlib-1", "a"], []⟩,
       c5Lock, 4) ∧
    resolveFull c5Ctx c5Lock c5Reqs true =
      (⟨true, [("virtlib", c5L), ("a", c5X2)], ["virtlib-1", "a-2"], []⟩,
       c5Lock, 0) ∧
    ([("virtlib", c5L), ("a", c5X1)] : Chosen) ≠
      [("virtlib", c5L), ("a", c5X2)] ∧
    (["virtlib-1", "a"] : List String) ≠ ["virtlib-1", "a-2"] := by
  refine ⟨resolveFullF_eq _ _ _ _ 200 _ (by rfl),
    resolveFullF_eq _ _ _ _ 200 _ (by rfl), by decide, by decide⟩

/-- A successful search result carries the topological order of its chosen
map, and saves the lock entry for the root key. -/
theorem resolveSearch_ok (ctx : ResolverCtx) (lock : LockData)
    (reqs : List PackageRequirement) (r : ResolveResult) (lock' : LockData)
    (steps : Nat) (hres : resolveSearch ctx lock reqs = (r, lock', steps))
    (hok : r.ok = true) :
    r.order = topologicalOrder r.chosen ∧
    lock' = saveLock lock reqs r.chosen := by
  unfold resolveSearch at hres
  dsimp only at hres
  cases hb : (backtrack ctx 0 [] [] 0 reqs (Nat.zero_le _)).val.res with
  | error e =>
      rw [hb] at hres
      dsimp only at hres
      injection hres with h1 h2
      rw [← h1] at hok
      simp at hok
  | ok o =>
      cases o with
      | none =>
          rw [hb] at hres
          dsimp only at hres
          injection hres with h1 h2
          rw [← h1] at hok
          simp at hok
      | some m =>
          rw [hb] at hres
          dsimp only at hres
          by_cases hv : (verifySelection m ctx.allowOptional).1 = true
          · rw [if_pos hv] at hres
            injection hres with h1 h2
            injection h2 with h2a h2b
            rw [← h1, ← h2a]
            exact ⟨rfl, rfl⟩
          · rw [if_neg hv] at hres
            injection hres with h1 h2
            rw [← h1] at hok
            simp at hok

/-- C5 (amended): what the lockfile mechanism guarantees.  A successful
resolve returns the topological order of its chosen map; unless it took
the lock shortcut (leaving the lock unchanged, zero search visits), it
stores the chosen `{name, version}` pairs under the sorted root-name key.
A later resolve whose reconstructed locked set verifies consistent accepts
it without search — but that set is rebuilt via `find_best` from the
name/version pairs and need not equal the original chosen map (see the
counterexample).  The search phase itself is deterministic and independent
of the lock contents, so when the lock path falls through, re-resolving
reproduces the first search's result and visit count exactly. -/
theorem c5_lock_write_and_locked_accept (ctx : ResolverCtx)
    (lock : LockData) (reqs : List PackageRequirement)
    (r : ResolveResult) (lock' : LockData) (steps : Nat)
    (hres : resolveFull ctx lock reqs true = (r, lock', steps))
    (hok : r.ok = true) :
    (r.order = topologicalOrder r.chosen) ∧
    (alGet lock' (lockKey reqs) =
        some (r.chosen.map (fun nc =>
          (nc.1, (⟨nc.2.name, nc.2.version⟩ : LockEntryVal)))) ∨
      (lock' = lock ∧ steps = 0)) ∧
    (∀ locked, applyLock ctx.repo lock' reqs = some locked →
      locked.isEmpty = false → (verifySelection locked true).1 = true →
      resolveFull ctx lock' reqs true =
        (⟨true, locked, topologicalOrder locked, []⟩, lock', 0)) ∧
    (∀ l₁ l₂ : LockData,
      (resolveSearch ctx l₁ reqs).1 = (resolveSearch ctx l₂ reqs).1 ∧
      (resolveSearch ctx l₁ reqs).2.2 = (resolveSearch ctx l₂ reqs).2.2) := by
  have hacc : ∀ (lk : LockData) (locked : Chosen),
      applyLock ctx.repo lk reqs = some locked →
      locked.isEmpty = false → (verifySelection locked true).1 = true →
      resolveFull ctx lk reqs true =
        (⟨true, locked, topologicalOrder locked, []⟩, lk, 0) := by
    intro lk locked hal hne hv
    unfold resolveFull
    rw [show (if (true : Bool) then applyLock ctx.repo lk reqs else none) =
      applyLock ctx.repo lk reqs from rfl, hal]
    dsimp only
    rw [if_pos ⟨by simp [hne], hv⟩]
  have hind : ∀ l₁ l₂ : LockData,
      (resolveSearch ctx l₁ reqs).1 = (resolveSearch ctx l₂ reqs).1 ∧
      (resolveSearch ctx l₁ reqs).2.2 = (resolveSearch ctx l₂ reqs).2.2 := by
    intro l₁ l₂
    unfold resolveSearch
    cases hb : (backtrack ctx 0 [] [] 0 reqs (Nat.zero_le _)).val.res with
    | error e =>
        dsimp only
        rw [hb]
        exact ⟨rfl, rfl⟩
    | ok o =>
        cases o with
        | none =>
            dsimp only
            rw [hb]
            exact ⟨rfl, rfl⟩
        | some m =>
            dsimp only
            rw [hb]
            dsimp only
            by_cases hv : (verifySelection m ctx.allowOptional).1 = true
            · simp only [if_pos hv]
              exact ⟨trivial, trivial⟩
            · simp only [if_neg hv]
              exact ⟨trivial, trivial⟩
  unfold resolveFull at hres
  rw [show (if (true : Bool) then applyLock ctx.repo lock reqs else none) =
    applyLock ctx.repo lock reqs from rfl] at hres
  cases hal : applyLock ctx.repo lock reqs with
  | none =>
      rw [hal] at hres
      dsimp only at hres
      obtain ⟨ho, hl⟩ := resolveSearch_ok ctx lock reqs r lock' steps hres
        hok
      refine ⟨ho, Or.inl ?_, fun locked h1 h2 h3 =>
        hacc lock' locked h1 h2 h3, hind⟩
      rw [hl]
      exact alGet_alSet_self _ _ _
  | some locked =>
      rw [hal] at hres
      dsimp only at hres
      by_cases hcond : ¬ locked.isEmpty = true ∧
          (verifySelection locked true).1 = true
      · rw [if_pos hcond] at hres
        injection hres with h1 h2
        injection h2 with h2a h2b
        refine ⟨by rw [← h1], Or.inr ⟨h2a.symm, h2b.symm⟩,
          fun lk2 hh1 hh2 hh3 => hacc lock' lk2 hh1 hh2 hh3, hind⟩
      · rw [if_neg hcond] at hres
        obtain ⟨ho, hl⟩ := resolveSearch_ok ctx lock reqs r lock' steps
          hres hok
        refine ⟨ho, Or.inl ?_, fun lk2 hh1 hh2 hh3 =>
          hacc lock' lk2 hh1 hh2 hh3, hind⟩
        rw [hl]
        exact alGet_alSet_self _ _ _

/-- The result of the second (lock-shortcut) resolve in the C5 scenario. -/
def c5R2 : ResolveResult :=
  ⟨true, [("virtlib", c5L), ("a", c5X2)], ["virtlib-1", "a-2"], []⟩

/-- Witness for C5: the amended theorem applied at the lock-shortcut
resolve of the concrete scenario, hypotheses discharged by evaluation. -/
theorem c5_lock_write_and_locked_accept_witness :
    (resolveFull c5Ctx c5Lock c5Reqs true = (c5R2, c5Lock, 0)) ∧
    (c5R2.ok = true) ∧
    ((c5R2.order = topologicalOrder c5R2.chosen) ∧
     (alGet c5Lock (lockKey c5Reqs) =
        some (c5R2.chosen.map (fun nc =>
          (nc.1, (⟨nc.2.name, nc.2.version⟩ : LockEntryVal)))) ∨
      (c5Lock = c5Lock ∧ (0 : Nat) = 0)) ∧
     (∀ locked, applyLock c5Ctx.repo c5Lock c5Reqs = some locked →
       locked.isEmpty = false → (verifySelection locked true).1 = true →
       resolveFull c5Ctx c5Lock c5Reqs true =
         (⟨true, locked, topologicalOrder locked, []⟩, c5Lock, 0)) ∧
     (∀ l₁ l₂ : LockData,
       (resolveSearch c5Ctx l₁ c5Reqs).1 =
         (resolveSearch c5Ctx l₂ c5Reqs).1 ∧
       (resolveSearch c5Ctx l₁ c5Reqs).2.2 =
         (resolveSearch c5Ctx l₂ c5Reqs).2.2)) := by
  have h : resolveFull c5Ctx c5Lock c5Reqs true = (c5R2, c5Lock, 0) :=
    resolveFullF_eq _ _ _ _ 200 _ (by rfl)
  exact ⟨h, rfl,
    c5_lock_write_and_locked_accept c5Ctx c5Lock c5Reqs c5R2 c5Lock 0 h
      rfl⟩

end Ibuild
